import Mathlib

/-!
# Verification of the signac `Collection` engine

A shallow embedding of `signac/contrib/collection.py`: an in-memory,
file-backed document collection with lazily maintained secondary indices
and MongoDB-style equality filters.

Documents are JSON-compatible values (`Val`).  Python dictionaries are
modelled as association lists that preserve insertion order (Python 3.7+
dict semantics); Python sets are modelled as duplicate-free lists (for
sets that the code iterates) or stay abstract behind membership.  The
JSON encode/decode collaborator is external to the engine; stored values
are already canonical `Val`s, so the `json.loads(json.dumps(x))`
normalisation round trip is the identity on the model, and `json.dumps`
of a value is modelled by `Val.dump`.  Machine-level behaviours
(exceptions) are modelled with `Except`: `Err` distinguishes the Python
exception classes the code can raise.
-/

set_option autoImplicit false
set_option maxRecDepth 8192

namespace Signac

/-- JSON-compatible document values (the closed variant set of §9 of the
design: null, booleans, numbers, strings, arrays, string-keyed objects).
Numbers are modelled as integers; nothing in the engine computes with
numeric values, they are only compared for equality. -/
inductive Val where
  | null
  | bool (b : Bool)
  | num (n : Int)
  | str (s : String)
  | arr (xs : List Val)
  | obj (fields : List (String × Val))

mutual

/-- Decidable equality for `Val` (written by hand: the automatic deriving
does not support nested inductives). -/
def Val.decEq : (a b : Val) → Decidable (a = b)
  | .null, .null => isTrue rfl
  | .null, .bool _ => isFalse fun h => Val.noConfusion h
  | .null, .num _ => isFalse fun h => Val.noConfusion h
  | .null, .str _ => isFalse fun h => Val.noConfusion h
  | .null, .arr _ => isFalse fun h => Val.noConfusion h
  | .null, .obj _ => isFalse fun h => Val.noConfusion h
  | .bool _, .null => isFalse fun h => Val.noConfusion h
  | .bool x, .bool y =>
      if h : x = y then isTrue (by rw [h]) else isFalse fun hh => h (Val.bool.inj hh)
  | .bool _, .num _ => isFalse fun h => Val.noConfusion h
  | .bool _, .str _ => isFalse fun h => Val.noConfusion h
  | .bool _, .arr _ => isFalse fun h => Val.noConfusion h
  | .bool _, .obj _ => isFalse fun h => Val.noConfusion h
  | .num _, .null => isFalse fun h => Val.noConfusion h
  | .num _, .bool _ => isFalse fun h => Val.noConfusion h
  | .num x, .num y =>
      if h : x = y then isTrue (by rw [h]) else isFalse fun hh => h (Val.num.inj hh)
  | .num _, .str _ => isFalse fun h => Val.noConfusion h
  | .num _, .arr _ => isFalse fun h => Val.noConfusion h
  | .num _, .obj _ => isFalse fun h => Val.noConfusion h
  | .str _, .null => isFalse fun h => Val.noConfusion h
  | .str _, .bool _ => isFalse fun h => Val.noConfusion h
  | .str _, .num _ => isFalse fun h => Val.noConfusion h
  | .str x, .str y =>
      if h : x = y then isTrue (by rw [h]) else isFalse fun hh => h (Val.str.inj hh)
  | .str _, .arr _ => isFalse fun h => Val.noConfusion h
  | .str _, .obj _ => isFalse fun h => Val.noConfusion h
  | .arr _, .null => isFalse fun h => Val.noConfusion h
  | .arr _, .bool _ => isFalse fun h => Val.noConfusion h
  | .arr _, .num _ => isFalse fun h => Val.noConfusion h
  | .arr _, .str _ => isFalse fun h => Val.noConfusion h
  | .arr xs, .arr ys =>
      match Val.decEqList xs ys with
      | isTrue h => isTrue (by rw [h])
      | isFalse h => isFalse fun hh => h (Val.arr.inj hh)
  | .arr _, .obj _ => isFalse fun h => Val.noConfusion h
  | .obj _, .null => isFalse fun h => Val.noConfusion h
  | .obj _, .bool _ => isFalse fun h => Val.noConfusion h
  | .obj _, .num _ => isFalse fun h => Val.noConfusion h
  | .obj _, .str _ => isFalse fun h => Val.noConfusion h
  | .obj _, .arr _ => isFalse fun h => Val.noConfusion h
  | .obj xs, .obj ys =>
      match Val.decEqFields xs ys with
      | isTrue h => isTrue (by rw [h])
      | isFalse h => isFalse fun hh => h (Val.obj.inj hh)

def Val.decEqList : (a b : List Val) → Decidable (a = b)
  | [], [] => isTrue rfl
  | [], _ :: _ => isFalse fun h => List.noConfusion h
  | _ :: _, [] => isFalse fun h => List.noConfusion h
  | x :: xs, y :: ys =>
      match Val.decEq x y, Val.decEqList xs ys with
      | isTrue h1, isTrue h2 => isTrue (by rw [h1, h2])
      | isFalse h1, _ => isFalse fun hh => h1 (List.cons.inj hh).1
      | _, isFalse h2 => isFalse fun hh => h2 (List.cons.inj hh).2

def Val.decEqFields : (a b : List (String × Val)) → Decidable (a = b)
  | [], [] => isTrue rfl
  | [], _ :: _ => isFalse fun h => List.noConfusion h
  | _ :: _, [] => isFalse fun h => List.noConfusion h
  | (k, v) :: xs, (k2, v2) :: ys =>
      match String.decEq k k2, Val.decEq v v2, Val.decEqFields xs ys with
      | isTrue h0, isTrue h1, isTrue h2 => isTrue (by rw [h0, h1, h2])
      | isFalse h0, _, _ =>
          isFalse fun hh => h0 (congrArg Prod.fst (List.cons.inj hh).1)
      | _, isFalse h1, _ =>
          isFalse fun hh => h1 (congrArg Prod.snd (List.cons.inj hh).1)
      | _, _, isFalse h2 => isFalse fun hh => h2 (List.cons.inj hh).2

end

instance : DecidableEq Val := Val.decEq

mutual

/-- `json.dumps` of a value, as produced by the external JSON
collaborator (Python separators: `", "` and `": "`).  Only used as an
opaque-but-computable string encoding of composite values. -/
def Val.dump : Val → String
  | .null => "null"
  | .bool true => "true"
  | .bool false => "false"
  | .num n => toString n
  | .str s => "\"" ++ s ++ "\""
  | .arr xs => "[" ++ Val.dumpList xs ++ "]"
  | .obj fs => "\x7b" ++ Val.dumpFields fs ++ "\x7d"

def Val.dumpList : List Val → String
  | [] => ""
  | [x] => Val.dump x
  | x :: xs => Val.dump x ++ ", " ++ Val.dumpList xs

def Val.dumpFields : List (String × Val) → String
  | [] => ""
  | [(k, v)] => "\"" ++ k ++ "\": " ++ Val.dump v
  | (k, v) :: fs => "\"" ++ k ++ "\": " ++ Val.dump v ++ ", " ++ Val.dumpFields fs

end

/-! ## Association-list dictionaries

Python `dict`s keep insertion order; updating an existing key keeps its
position, inserting a new key appends.  Lookup and delete act on the
first (for well-formed dictionaries: the only) occurrence of a key. -/

/-- `d[k]`, as an `Option`. -/
def assocGet {α β : Type} [DecidableEq α] : List (α × β) → α → Option β
  | [], _ => none
  | (k, v) :: t, key => if k = key then some v else assocGet t key

/-- `d[k] = v`: replace in place, or append when the key is new. -/
def assocSet {α β : Type} [DecidableEq α] : List (α × β) → α → β → List (α × β)
  | [], key, val => [(key, val)]
  | (k, v) :: t, key, val =>
      if k = key then (k, val) :: t else (k, v) :: assocSet t key val

/-- `del d[k]` / `d.pop(k)`: drop the first binding of the key. -/
def assocRemove {α β : Type} [DecidableEq α] : List (α × β) → α → List (α × β)
  | [], _ => []
  | (k, v) :: t, key => if k = key then t else (k, v) :: assocRemove t key

/-- The key list of a dictionary, in insertion order. -/
def keysOf {α β : Type} (d : List (α × β)) : List α := d.map Prod.fst

/-- `s.add(x)` on a Python set modelled as a duplicate-free list. -/
def addElem {α : Type} [DecidableEq α] (l : List α) (x : α) : List α :=
  if x ∈ l then l else l ++ [x]

/-! ## Path traversal and encoding (`collection.py` lines 34-89) -/

/-- `_encode_tree`: lists are canonicalised to their JSON dump string so
that they can serve as (hashable) index keys; everything else is used
as-is. -/
def _encode_tree (x : Val) : Val :=
  match x with
  | .arr xs => .str (Val.dump (.arr xs))
  | v => v

mutual

/-- `_valid_filter(f, top)`: a filter is invalid exactly when a bare
sequence occurs as a top-level value.  Mappings recurse with
`top=False`; sequences are allowed only when not at the top. -/
def _valid_filter (f : Val) (top : Bool) : Bool :=
  match f with
  | .obj fs => _valid_filterFields fs
  | .arr _ => !top
  | _ => true

def _valid_filterFields : List (String × Val) → Bool
  | [] => true
  | kv :: rest => _valid_filter kv.2 false && _valid_filterFields rest

end

mutual

/-- `_traverse_tree(t, encode=_encode_tree)` followed by `_flatten`:
yields one (key chain, leaf value) pair per terminal leaf of a filter
document.  The source encodes each subterm on entry and only then tests
for list / Mapping; since encoding turns every list into a string, the
list branch of the source is dead code here and sequences are leaves.
Mappings are untouched by the encoding and recurse per key; empty
mappings therefore contribute no pairs; all other values are leaves. -/
def _traverse_tree_enc (t : Val) : List (List String × Val) :=
  match t with
  | .obj fs => _traverse_tree_fields fs
  | leaf => [([], _encode_tree leaf)]

def _traverse_tree_fields : List (String × Val) → List (List String × Val)
  | [] => []
  | kv :: rest =>
      ((_traverse_tree_enc kv.2).map fun pv => (kv.1 :: pv.1, pv.2)) ++
        _traverse_tree_fields rest

end

/-- `traverse_filter(f)`: flatten a filter document into
(dotted path, encoded leaf value) pairs. -/
def traverse_filter (f : Val) : List (String × Val) :=
  (_traverse_tree_enc f).map fun pv => (String.intercalate "." pv.1, pv.2)

/-! ## Errors

The Python exception classes the engine can raise, collapsed to the
granularity the code distinguishes. -/

inductive Err where
  /-- `RuntimeError("Trying to access closed Collection.")` -/
  | runtimeClosed
  /-- `KeyError` (missing dictionary key, missing index) -/
  | keyError
  /-- `TypeError` (subscripting a non-mapping, iterating `None`,
  non-string primary key, unsized filter) -/
  | typeError
  /-- `ValueError` (invalid filter, primary key mismatch) -/
  | valueError
  /-- `AttributeError` (calling a dict method on a non-dict / `None`) -/
  | attributeError
  deriving DecidableEq

/-- `key.split('.')` — the period-separated segments of a key.
Defined over the character list (structurally) so that concrete keys
evaluate definitionally; agrees with Python's `str.split('.')`,
including `"".split('.') == ['']`. -/
def splitDots (s : String) : List String :=
  (s.data.splitOn '.').map List.asString

/-- `_get_value(doc, nodes)` inside `_build_index`: walk the
period-separated segments.  A missing key raises `KeyError`;
subscripting a non-mapping with a string raises `TypeError` (this one is
NOT caught by `_build_index`). -/
def _get_value : Val → List String → Except Err Val
  | doc, [] => .ok doc
  | doc, n :: rest =>
      match doc with
      | .obj fs =>
          match assocGet fs n with
          | some v => _get_value v rest
          | none => .error .keyError
      | _ => .error .typeError

/-! ## Indices

An index maps an encoded leaf value to the set of primary keys of the
documents holding that value; `defaultdict(set)` in the source.  Buckets
are Python sets of the raw `doc[primary_key]` values (strings, for every
document that went through `Collection.__setitem__`), modelled as
duplicate-free lists. -/

/-- One index: encoded value to bucket. -/
abbrev Index : Type := List (Val × List Val)

/-- `index[v]` with the `defaultdict` default: the empty set. -/
def idxGet (idx : Index) (v : Val) : List Val :=
  (assocGet idx v).getD []

/-- `index[_encode_tree(v)].add(x)` (the value is already encoded by the
caller): add to the bucket, creating it when absent. -/
def idxAdd (idx : Index) (v : Val) (x : Val) : Index :=
  match assocGet idx v with
  | some g => assocSet idx v (addElem g x)
  | none => idx ++ [(v, [x])]

/-- `doc[key]` on a document: `KeyError` when the key is missing,
`TypeError` when the document is not a mapping. -/
def docGet (doc : Val) (key : String) : Except Err Val :=
  match doc with
  | .obj fs =>
      match assocGet fs key with
      | some v => .ok v
      | none => .error .keyError
  | _ => .error .typeError

/-- The per-document body of the `_build_index` loop: index the value
reached by walking the period-separated segments (a `KeyError` anywhere
along the walk silently skips the document; a `TypeError` propagates),
then — for multi-segment keys only — additionally index a value stored
under the literal dotted field name (the deprecated fallback). -/
def _build_index_step (key : String) (primary_key : String) (nodes : List String)
    (idx : Index) (doc : Val) : Except Err Index := do
  let idx1 ←
    match _get_value doc nodes with
    | .error .keyError => pure idx
    | .error e => .error e
    | .ok v => do
        let pk ← docGet doc primary_key
        pure (idxAdd idx (_encode_tree v) pk)
  if nodes.length > 1 then
    match docGet doc key with
    | .error .keyError => pure idx1
    | .error e => .error e
    | .ok v => do
        let pk ← docGet doc primary_key
        pure (idxAdd idx1 (_encode_tree v) pk)
  else
    pure idx1

/-- `_build_index(docs, key, primary_key)` (lines 92-119). -/
def _build_index (docs : List Val) (key : String) (primary_key : String) :
    Except Err Index :=
  docs.foldlM (_build_index_step key primary_key (splitDots key)) []


/-! ## The backing file

The persistence layer sees a line-oriented stream: each line is one JSON
document, modelled already decoded.  Every read and write in the engine
is line-aligned, so the stream position can be measured in lines.
`truncate()` (no argument) truncates at the *current position* — this
detail is load-bearing for the flush behaviour. -/

structure FStream where
  lines : List Val
  pos : Nat
  deriving DecidableEq

/-! ## The Collection -/

/-- The `Collection` object state.  `docs = none` models the closed
state (`self._docs = None`); `file = none` models `self._file = None`.
The dirty set is a Python set of ids, modelled as a duplicate-free
list. -/
structure Collection where
  primary_key : String
  file : Option FStream
  requires_flush : Bool
  dirty : List String
  indeces : List (String × Index)
  docs : Option (List (String × Val))
  deriving DecidableEq

namespace Collection

/-- The state built by `Collection.__init__(docs=None)`: an empty
in-memory `StringIO` backing, nothing dirty, no indices. -/
def new (primary_key : String) : Collection :=
  { primary_key := primary_key
    file := some { lines := [], pos := 0 }
    requires_flush := false
    dirty := []
    indeces := []
    docs := some [] }

/-- `_assert_open` (lines 152-155). -/
def _assert_open (c : Collection) : Except Err Unit :=
  match c.docs with
  | none => .error .runtimeClosed
  | some _ => .ok ()

/-- `_remove_from_indeces(_id)` restricted to one index: discard the id
from every bucket, then drop the buckets that are (now) empty
(lines 157-168). -/
def removeIdFromIndex (idx : Index) (_id : String) : Index :=
  (idx.map fun vg => (vg.1, vg.2.erase (Val.str _id))).filter fun vg => vg.2 ≠ []

/-- `_remove_from_indeces(_id)`: apply to every index. -/
def _remove_from_indeces (ind : List (String × Index)) (_id : String) :
    List (String × Index) :=
  ind.map fun ki => (ki.1, removeIdFromIndex ki.2 _id)

/-- `__getitem__` (lines 220-222).  The source returns
`self._docs[_id].copy()`; the copy is value-equal to the stored
document, so at the value level it is the document itself (the aliasing
consequences of its shallowness are studied separately in the heap
model below). -/
def getitem (c : Collection) (_id : String) : Except Err Val := do
  let _ ← c._assert_open
  match c.docs with
  | none => .error .runtimeClosed
  | some ds =>
      match assocGet ds _id with
      | some doc => .ok doc
      | none => .error .keyError

/-- `index[v].update(group)` for one bucket of an index merge
(`defaultdict` creates a missing bucket). -/
def idxMergeOne (idx : Index) (v : Val) (g : List Val) : Index :=
  assocSet idx v (g.foldl addElem (idxGet idx v))

/-- The merge loop of `_update_indeces`: fold every bucket of the
freshly built partial index into the existing one. -/
def idxMerge (idx : Index) (tmp : Index) : Index :=
  tmp.foldl (fun i vg => idxMergeOne i vg.1 vg.2) idx

/-- `_update_indeces` (lines 170-179): when anything is dirty, first
remove every dirty id from every bucket of every index, then rebuild the
dirty documents' contributions (per index key) and merge them in, then
clear the dirty set.  The source iterates the dirty set in arbitrary
order; removal of distinct ids commutes, so the model iterates the list
representation. -/
def _update_indeces (c : Collection) : Except Err Collection :=
  if c.dirty = [] then .ok c
  else do
    let ind1 := c.dirty.foldl _remove_from_indeces c.indeces
    let docsL ← c.dirty.mapM c.getitem
    let ind2 ← ind1.mapM fun ki => do
      let tmp ← _build_index docsL ki.1 c.primary_key
      pure (ki.1, idxMerge ki.2 tmp)
    .ok { c with indeces := ind2, dirty := [] }

/-- `_build_index(key)` — the method (lines 181-184): build the index
for a key from all current documents and install it. -/
def buildIndexFor (c : Collection) (key : String) : Except Err Collection :=
  match c.docs with
  | none => .error .attributeError
  | some ds => do
      let idx ← _build_index (ds.map Prod.snd) key c.primary_key
      pure { c with indeces := assocSet c.indeces key idx }

/-- `index(key, build)` (lines 186-195): refuse the primary key, build
on demand (or fail) when absent, refresh, and return the index. -/
def index (c : Collection) (key : String) (build : Bool) :
    Except Err (Index × Collection) := do
  if key = c.primary_key then .error .keyError
  else
    let c1 ←
      if (assocGet c.indeces key).isNone then
        if build then c.buildIndexFor key else .error .keyError
      else pure c
    let c2 ← c1._update_indeces
    match assocGet c2.indeces key with
    | some idx => .ok (idx, c2)
    | none => .error .keyError

/-- `__iter__` materialised (line 200-202): the documents in table
order. -/
def iterDocs (c : Collection) : Except Err (List Val) := do
  let _ ← c._assert_open
  match c.docs with
  | none => .error .runtimeClosed
  | some ds => .ok (ds.map Prod.snd)

/-- The `ids` property (lines 204-207): the primary keys in table
order. -/
def idsList (c : Collection) : Except Err (List String) := do
  let _ ← c._assert_open
  match c.docs with
  | none => .error .runtimeClosed
  | some ds => .ok (keysOf ds)

/-- `__len__` (lines 213-215). -/
def length (c : Collection) : Except Err Nat := do
  let _ ← c._assert_open
  match c.docs with
  | none => .error .runtimeClosed
  | some ds => .ok ds.length

/-- `__contains__` (lines 217-218).  NOTE: no `_assert_open` — on a
closed collection `_id in None` raises `TypeError`, not the
collection-closed `RuntimeError`.  The membership test compares an
arbitrary value against the string keys of the table. -/
def contains (c : Collection) (_id : Val) : Except Err Bool :=
  match c.docs with
  | none => .error .typeError
  | some ds =>
      match _id with
      | .str s => .ok (s ∈ keysOf ds)
      | _ => .ok false

/-- `__setitem__` (lines 224-237): assert open; the key must be a
string (guaranteed by the type here); `doc.setdefault(primary_key, _id)`
(appends the field when absent — `AttributeError` when the document is
not a mapping); reject a mismatched primary-key field; store the
canonical deep copy (the identity on `Val`); mark dirty and
requiring flush. -/
def setitem (c : Collection) (_id : String) (doc : Val) : Except Err Collection := do
  let _ ← c._assert_open
  match c.docs with
  | none => .error .runtimeClosed
  | some ds =>
      match doc with
      | .obj fs =>
          let fs' := if (assocGet fs c.primary_key).isNone
                     then fs ++ [(c.primary_key, .str _id)] else fs
          match assocGet fs' c.primary_key with
          | some v =>
              if v ≠ .str _id then .error .valueError
              else .ok { c with
                docs := some (assocSet ds _id (.obj fs'))
                dirty := addElem c.dirty _id
                requires_flush := true }
          | none => .error .keyError
      | _ => .error .attributeError

/-- `insert_one(doc)` (lines 239-243).  `str(uuid4())` is modelled by
the explicit `fresh` argument: the id used when the document carries no
primary-key field.  A non-string primary-key value raises `TypeError`
inside `self[_id] = doc`. -/
def insert_one (c : Collection) (fresh : String) (doc : Val) :
    Except Err (String × Collection) := do
  let _ ← c._assert_open
  match doc with
  | .obj fs =>
      let fs' := if (assocGet fs c.primary_key).isNone
                 then fs ++ [(c.primary_key, .str fresh)] else fs
      match assocGet fs' c.primary_key with
      | some (.str _id) => do
          let c' ← c.setitem _id (.obj fs')
          pure (_id, c')
      | some _ => .error .typeError
      | none => .error .keyError
  | _ => .error .attributeError

/-- `__delitem__` (lines 245-253): remove the document (`KeyError` when
absent), eagerly purge the id from every index, discard it from the
dirty set, mark requiring flush. -/
def delitem (c : Collection) (_id : String) : Except Err Collection := do
  let _ ← c._assert_open
  match c.docs with
  | none => .error .runtimeClosed
  | some ds =>
      if _id ∈ keysOf ds then
        .ok { c with
          docs := some (assocRemove ds _id)
          indeces := _remove_from_indeces c.indeces _id
          dirty := c.dirty.erase _id
          requires_flush := true }
      else .error .keyError

/-- `clear` (lines 255-259).  NOTE: no `_assert_open` — on a closed
collection `None.clear()` raises `AttributeError`, not the
collection-closed `RuntimeError`. -/
def clear (c : Collection) : Except Err Collection :=
  match c.docs with
  | none => .error .attributeError
  | some _ =>
      .ok { c with
        docs := some []
        indeces := []
        dirty := []
        requires_flush := true }

/-- One iteration of the `update(docs)` loop (lines 261-264):
`doc.setdefault(primary_key, fresh)` then `self[doc[primary_key]] = doc`
(`TypeError` when that value is not a string). -/
def updateOne (c : Collection) (fd : String × Val) : Except Err Collection := do
  let _ ← c._assert_open
  match fd.2 with
  | .obj fs =>
      let fs' := if (assocGet fs c.primary_key).isNone
                 then fs ++ [(c.primary_key, .str fd.1)] else fs
      match assocGet fs' c.primary_key with
      | some (.str _id) => c.setitem _id (.obj fs')
      | some _ => .error .typeError
      | none => .error .keyError
  | _ => .error .attributeError

/-- `update(docs)` (lines 261-264): insert every document, generating a
fresh id for each one that lacks the primary-key field; one `fresh`
token is supplied per document. -/
def updateMany (c : Collection) (docs : List (String × Val)) :
    Except Err Collection :=
  docs.foldlM updateOne c

/-- `_check_filter` (lines 266-270): `ValueError` on an invalid
filter. -/
def _check_filter (filter? : Option Val) : Except Err Unit :=
  match filter? with
  | none => .ok ()
  | some f => if _valid_filter f true then .ok () else .error .valueError

/-- `set(islice(result, limit if limit else None))` on a list-modelled
set: all elements for `limit = 0`, otherwise the first `limit` of them
(the source iterates a Python set in unspecified order; the model fixes
the representation order). -/
def listTruncate (l : List Val) (limit : Nat) : List Val :=
  if limit = 0 then l else l.take limit

/-- The `for key, value in traverse_filter(filter)` loop of `_find`
(lines 283-293), followed by the final truncation (line 294).  The
running candidate `result` is `none` while unconstrained; the loop
breaks as soon as the candidate becomes empty, or reaches a nonzero
limit; falling out of the loop with `result` still `None` makes
`islice(None, ...)` raise `TypeError`. -/
def findLoop (c : Collection) (limit : Nat) :
    List (String × Val) → Option (List Val) → Except Err (List Val × Collection)
  | [], result =>
      match result with
      | none => .error .typeError
      | some r => .ok (listTruncate r limit, c)
  | (key, value) :: rest, result => do
      let (idx, c') ← c.index key true
      let ms := idxGet idx value
      let r := match result with
               | none => ms
               | some r0 => r0.filter (· ∈ ms)
      if r = [] then .ok (listTruncate r limit, c')
      else if limit ≠ 0 ∧ limit ≤ r.length then .ok (listTruncate r limit, c')
      else findLoop c' limit rest (some r)

/-- `_find(filter, limit)` (lines 272-294).  The filter normalisation
round trip through the JSON collaborator is the identity on canonical
values.  Results are the candidate primary keys (which are arbitrary
values in general: the primary-key fast path seeds with the filter's own
value) plus the mutated collection — the source builds/refreshes indices
in place during the scan.  A non-mapping, non-sequence filter makes the
source raise (`TypeError` on `len()` or `AttributeError` on `.pop`)
except for the empty string, which `not len(filter)` treats like an
empty filter; the model collapses those raises to `TypeError`. -/
def _find (c : Collection) (filter? : Option Val) (limit : Nat) :
    Except Err (List Val × Collection) := do
  let _ ← c._assert_open
  match c.docs with
  | none => .error .runtimeClosed
  | some ds => do
      let _ ← _check_filter filter?
      match filter? with
      | none => .ok (listTruncate (keysOf ds |>.map Val.str) limit, c)
      | some (.obj []) => .ok (listTruncate (keysOf ds |>.map Val.str) limit, c)
      | some (.str "") => .ok (listTruncate (keysOf ds |>.map Val.str) limit, c)
      | some (.obj fs) =>
          let idOpt := assocGet fs c.primary_key
          let fs' := assocRemove fs c.primary_key
          let seed : Option (List Val) :=
            match idOpt with
            | none => none
            | some .null => none
            | some v =>
                match v with
                | .str s => if s ∈ keysOf ds then some [v] else none
                | _ => none
          findLoop c limit (traverse_filter (.obj fs')) seed
      | some _ => .error .typeError

/-- `find(filter, limit)` (lines 296-298) wraps the id set of `_find`
in a lazy view; the ids it ranges over are exactly `_find`'s result. -/
def find (c : Collection) (filter? : Option Val) (limit : Nat) :
    Except Err (List Val × Collection) :=
  c._find filter? limit

/-- `replace_one(filter, replacement, upsert)` (lines 304-314): a
single-entry primary-key filter bypasses the query path and assigns
directly (an implicit upsert); otherwise replace the first match, or
insert when `upsert` is set and nothing matched. -/
def replace_one (c : Collection) (filter : Val) (replacement : Val)
    (upsert : Bool) (fresh : String) : Except Err Collection := do
  let _ ← c._assert_open
  match filter with
  | .obj fs =>
      if fs.length = 1 ∧ (assocGet fs c.primary_key).isSome then
        match assocGet fs c.primary_key with
        | some (.str _id) => c.setitem _id replacement
        | some _ => .error .typeError
        | none => .error .keyError
      else do
        let (ids, c1) ← c._find (some filter) 0
        match ids with
        | [] => if upsert then do
                  let rc ← c1.insert_one fresh replacement
                  pure rc.2
                else pure c1
        | v :: _ =>
            match v with
            | .str s => c1.setitem s replacement
            | _ => .error .typeError
  | _ => .error .typeError

/-- `dump(file)` (lines 326-329) produces one JSON line per document in
table order; modelled as the document list itself. -/
def dumpLines (c : Collection) : Except Err (List Val) := do
  let _ ← c._assert_open
  match c.docs with
  | none => .error .runtimeClosed
  | some ds => .ok (ds.map Prod.snd)

/-- `flush()` (lines 351-363).  With pending mutations and a backing
file: `truncate()` — at the CURRENT position, which after the initial
line-by-line read (or a previous flush) sits at the end of the data —
then append one line per document and clear the flag.  Without pending
mutations: a no-op. -/
def flush (c : Collection) : Except Err Collection := do
  let _ ← c._assert_open
  if c.requires_flush then
    match c.file with
    | none => .ok { c with requires_flush := false }
    | some f => do
        let body ← c.dumpLines
        let lines' := f.lines.take f.pos ++ body
        .ok { c with
          file := some { lines := lines', pos := lines'.length }
          requires_flush := false }
  else .ok c

/-- The `Collection(docs=...)` constructor body (lines 139-150): insert
every document under its own primary-key value (`KeyError` when the
field is missing, `TypeError` when its value is not a string), then
reset the flush flag (the initial read is not a mutation) and refresh
the (empty) index map, which clears the dirty set. -/
def initOne (primary_key : String) (c : Collection) (doc : Val) :
    Except Err Collection :=
  match doc with
  | .obj fs =>
      match assocGet fs primary_key with
      | some (.str _id) => c.setitem _id doc
      | some _ => .error .typeError
      | none => .error .keyError
  | _ => .error .typeError

def initFromDocs (primary_key : String) (docs : List Val) :
    Except Err Collection := do
  let c ← docs.foldlM (initOne primary_key) (Collection.new primary_key)
  let c := { c with requires_flush := false }
  c._update_indeces

/-- `_open(file)` (lines 331-339): read one document per line from the
current position (leaving the position at the end), build a collection
with the DEFAULT primary key, and attach the file. -/
def _openStream (f : FStream) : Except Err Collection := do
  let c ← initFromDocs "_id" (f.lines.drop f.pos)
  .ok { c with file := some { lines := f.lines, pos := f.lines.length } }

/-- `open(filename)` (lines 341-349) for a named resource holding
`content`: open in `a+` mode, `seek(0)`, then `_open`. -/
def openFile (content : List Val) : Except Err Collection :=
  _openStream { lines := content, pos := 0 }

/-- `close()` (lines 365-373): with a backing file, flush, then release
the file and drop the in-memory state.  (The `finally`-block cleanup is
only observable when flush raises, which needs an already-torn-down
state; the model propagates the error.) -/
def close (c : Collection) : Except Err Collection :=
  match c.file with
  | none => .ok c
  | some _ => do
      let c1 ← c.flush
      .ok { c1 with file := none, indeces := [], docs := none }

end Collection

/-! ## Operation sequences

An arbitrary interleaving of the mutating entry points and of the
query-driven index refreshes, used to quantify over reachable
states. -/

inductive Op where
  /-- `collection[id] = doc` -/
  | set (_id : String) (doc : Val)
  /-- `del collection[id]` -/
  | del (_id : String)
  /-- `collection.insert_one(doc)` (with its generated token) -/
  | insertOne (fresh : String) (doc : Val)
  /-- `collection.update(docs)` (with one generated token each) -/
  | updateDocs (docs : List (String × Val))
  /-- `collection.index(key, build=True)`: a query entry point that
  builds and refreshes indices -/
  | touch (key : String)
  deriving DecidableEq

/-- Run one operation, keeping only the collection state. -/
def applyOp (c : Collection) : Op → Except Err Collection
  | .set _id doc => c.setitem _id doc
  | .del _id => c.delitem _id
  | .insertOne fresh doc => do
      let rc ← c.insert_one fresh doc
      pure rc.2
  | .updateDocs docs => c.updateMany docs
  | .touch key => do
      let ic ← c.index key true
      pure ic.2

/-- Run a sequence of operations; any raised error aborts the run. -/
def runOps (c : Collection) (ops : List Op) : Except Err Collection :=
  ops.foldlM applyOp c

/-! ## Specification predicates

What it means for a stored document to be indexed under an encoded value
for a key, mirroring exactly what `_build_index` records. -/

/-- The document holds a value encoding to `v` when walking the
period-separated segments of `key`. -/
def walkMatch (doc : Val) (key : String) (v : Val) : Bool :=
  match _get_value doc (splitDots key) with
  | .ok w => _encode_tree w = v
  | .error _ => false

/-- The deprecated fallback: for a multi-segment key, the document holds
a value encoding to `v` under the literal dotted field name. -/
def literalMatch (doc : Val) (key : String) (v : Val) : Bool :=
  decide ((splitDots key).length > 1) &&
  (match doc with
   | .obj fs =>
       match assocGet fs key with
       | some w => _encode_tree w = v
       | none => false
   | _ => false)

/-- A document is indexed under `v` for `key` iff it matches by walking
or by the literal-dotted-name fallback. -/
def docMatch (doc : Val) (key : String) (v : Val) : Bool :=
  walkMatch doc key v || literalMatch doc key v

/-- The ids of the table documents indexed under `v` for `key`, as
`Val.str` values in table order: the set the index bucket must equal. -/
def matchIds (ds : List (String × Val)) (key : String) (v : Val) : List Val :=
  (ds.filter fun p => docMatch p.2 key v).map fun p => Val.str p.1

/-- The reachable-state invariant of a (non-closed) collection:
  * table keys are duplicate-free;
  * every stored document is a mapping whose primary-key field holds
    exactly its table key;
  * the dirty set is duplicate-free and lives inside the table;
  * every index has duplicate-free bucket keys, holds only `Val.str`
    elements in duplicate-free buckets, and is exact on every id that is
    not dirty. -/
structure InvOn (pk : String) (ds : List (String × Val)) (dirty : List String)
    (ind : List (String × Index)) : Prop where
  nodupKeys : (keysOf ds).Nodup
  pkField : ∀ _id doc, assocGet ds _id = some doc →
    ∃ fs, doc = .obj fs ∧ assocGet fs pk = some (.str _id)
  dirtyNodup : dirty.Nodup
  dirtySub : ∀ _id ∈ dirty, _id ∈ keysOf ds
  idxKeysNodup : ∀ key idx, (key, idx) ∈ ind → (keysOf idx).Nodup
  idxBucketsNodup : ∀ key idx, (key, idx) ∈ ind → ∀ v, (idxGet idx v).Nodup
  idxStr : ∀ key idx, (key, idx) ∈ ind → ∀ v x, x ∈ idxGet idx v → ∃ s, x = Val.str s
  idxOK : ∀ key idx, (key, idx) ∈ ind → ∀ v (_id : String), _id ∉ dirty →
    (Val.str _id ∈ idxGet idx v ↔
      ∃ doc, assocGet ds _id = some doc ∧ docMatch doc key v = true)

/-- The invariant of a collection object: open, with `InvOn` holding of
its components. -/
def Inv (c : Collection) : Prop :=
  ∃ ds, c.docs = some ds ∧ InvOn c.primary_key ds c.dirty c.indeces

/-! ## A heap model for `__getitem__`'s shallow copy

`self._docs[_id].copy()` copies only the top level of the stored
dictionary: the copy's fields still reference the same nested objects.
To reason about what a caller's in-place mutations can reach, documents
are modelled with explicit references: a heap maps addresses to
dictionary objects whose field values are either immutable primitives or
references to further heap objects. -/

/-- A heap value: an immutable primitive, or a reference to a mutable
object on the heap. -/
inductive HVal where
  | prim (v : Val)
  | ref (a : Nat)
  deriving DecidableEq

/-- The heap: addresses to dictionary objects (field lists). -/
abbrev Heap : Type := List (Nat × List (String × HVal))

/-- Read the fields of the object at an address. -/
def heapGet (h : Heap) (a : Nat) : Option (List (String × HVal)) :=
  assocGet h a

/-- An address not used by any object of the heap. -/
def freshAddr (h : Heap) : Nat :=
  (h.map Prod.fst).foldr max 0 + 1

/-- Does any object of the heap hold a reference to address `a`? -/
def heapMentions (h : Heap) (a : Nat) : Bool :=
  h.any fun obj => obj.2.any fun f => f.2 = HVal.ref a

/-- `d.copy()` — Python's shallow dict copy: allocate a fresh object
with the same field list; nested references are shared, not copied. -/
def copyTop (h : Heap) (a : Nat) : Option (Heap × Nat) :=
  match heapGet h a with
  | none => none
  | some fields => some (h ++ [(freshAddr h, fields)], freshAddr h)

/-- `o[k] = w`: mutate one field of the object at address `a` in
place. -/
def setField (h : Heap) (a : Nat) (k : String) (w : HVal) : Heap :=
  h.map fun obj => if obj.1 = a then (obj.1, assocSet obj.2 k w) else obj

/-- Read one field of the object at an address. -/
def getField (h : Heap) (a : Nat) (k : String) : Option HVal :=
  match heapGet h a with
  | none => none
  | some fields => assocGet fields k

/-- Materialise the value graph reachable from a heap value as a plain
`Val` (fuel-bounded so it is total even on cyclic heaps): the "document
held in the table" as an observable value. -/
def materialize : Nat → Heap → HVal → Option Val
  | 0, _, _ => none
  | _ + 1, _, .prim v => some v
  | fuel + 1, h, .ref a =>
      match heapGet h a with
      | none => none
      | some fields =>
          (fields.mapM fun f => (materialize fuel h f.2).map (f.1, ·)).map Val.obj

/-! ## Dictionary lemmas -/

section AssocLemmas

variable {α β : Type} [DecidableEq α]

theorem assocGet_eq_none {l : List (α × β)} {k : α} :
    assocGet l k = none ↔ k ∉ keysOf l := by
  induction l with
  | nil => simp [assocGet, keysOf]
  | cons p t ih =>
      obtain ⟨a, b⟩ := p
      by_cases h : a = k
      · subst h
        simp [assocGet, keysOf]
      · have h' : k ≠ a := fun hh => h hh.symm
        simp [assocGet, keysOf, h, h']
        simpa [keysOf] using ih

theorem assocGet_mem {l : List (α × β)} {k : α} {v : β}
    (h : assocGet l k = some v) : (k, v) ∈ l := by
  induction l with
  | nil => simp [assocGet] at h
  | cons p t ih =>
      obtain ⟨a, b⟩ := p
      by_cases hk : a = k
      · subst hk
        simp [assocGet] at h
        simp [h]
      · simp [assocGet, hk] at h
        simp [ih h]

theorem mem_assocGet {l : List (α × β)} {k : α} {v : β}
    (nd : (keysOf l).Nodup) (h : (k, v) ∈ l) : assocGet l k = some v := by
  induction l with
  | nil => simp at h
  | cons p t ih =>
      obtain ⟨a, b⟩ := p
      have ndc := List.nodup_cons.mp (show (a :: keysOf t).Nodup from nd)
      rcases List.mem_cons.mp h with h1 | h1
      · cases h1
        simp [assocGet]
      · have hk : a ≠ k := by
          intro hak
          refine ndc.1 ?_
          rw [hak]
          exact List.mem_map_of_mem Prod.fst h1
        simp [assocGet, hk]
        exact ih ndc.2 h1

theorem assocGet_isSome {l : List (α × β)} {k : α} :
    (assocGet l k).isSome ↔ k ∈ keysOf l := by
  constructor
  · intro hs
    rcases Option.isSome_iff_exists.mp hs with ⟨v, hv⟩
    exact List.mem_map.mpr ⟨(k, v), assocGet_mem hv, rfl⟩
  · intro hk
    rcases hopt : assocGet l k with _ | v
    · exact absurd hk (assocGet_eq_none.mp hopt)
    · simp

theorem assocGet_assocSet_self {l : List (α × β)} {k : α} {v : β} :
    assocGet (assocSet l k v) k = some v := by
  induction l with
  | nil => simp [assocGet, assocSet]
  | cons p t ih =>
      obtain ⟨a, b⟩ := p
      by_cases h : a = k <;> simp [assocGet, assocSet, h, ih]

theorem assocGet_assocSet_ne {l : List (α × β)} {k k' : α} {v : β}
    (h : k' ≠ k) : assocGet (assocSet l k v) k' = assocGet l k' := by
  induction l with
  | nil => simp [assocGet, assocSet, Ne.symm h]
  | cons p t ih =>
      obtain ⟨a, b⟩ := p
      by_cases ha : a = k
      · subst ha
        simp [assocSet, assocGet, Ne.symm h]
      · simp [assocSet, assocGet, ha, ih]

theorem keysOf_assocSet_of_mem {l : List (α × β)} {k : α} {v : β}
    (h : k ∈ keysOf l) : keysOf (assocSet l k v) = keysOf l := by
  induction l with
  | nil => simp [keysOf] at h
  | cons p t ih =>
      obtain ⟨a, b⟩ := p
      by_cases ha : a = k
      · simp [assocSet, ha, keysOf]
      · have h' : k ∈ keysOf t := by
          rcases List.mem_cons.mp (show k ∈ a :: keysOf t from h) with h1 | h1
          · exact absurd h1.symm ha
          · exact h1
        simp [assocSet, ha, keysOf]
        simpa [keysOf] using ih h'

theorem keysOf_assocSet_of_not_mem {l : List (α × β)} {k : α} {v : β}
    (h : k ∉ keysOf l) : keysOf (assocSet l k v) = keysOf l ++ [k] := by
  induction l with
  | nil => simp [assocSet, keysOf]
  | cons p t ih =>
      obtain ⟨a, b⟩ := p
      have hmem := List.mem_cons.not.mp (show ¬k ∈ a :: keysOf t from h)
      push_neg at hmem
      have ha : a ≠ k := fun hh => hmem.1 hh.symm
      simp [assocSet, ha, keysOf]
      simpa [keysOf] using ih hmem.2

theorem nodup_keysOf_assocSet {l : List (α × β)} {k : α} {v : β}
    (nd : (keysOf l).Nodup) : (keysOf (assocSet l k v)).Nodup := by
  by_cases h : k ∈ keysOf l
  · rw [keysOf_assocSet_of_mem h]; exact nd
  · rw [keysOf_assocSet_of_not_mem h]
    simpa [List.nodup_append] using ⟨nd, fun hh => h hh⟩

theorem assocGet_assocRemove_ne {l : List (α × β)} {k k' : α}
    (h : k' ≠ k) : assocGet (assocRemove l k) k' = assocGet l k' := by
  induction l with
  | nil => simp [assocRemove]
  | cons p t ih =>
      obtain ⟨a, b⟩ := p
      by_cases ha : a = k
      · subst ha
        simp [assocRemove, assocGet, Ne.symm h]
      · simp [assocRemove, assocGet, ha, ih]

theorem assocGet_assocRemove_self {l : List (α × β)} {k : α}
    (nd : (keysOf l).Nodup) : assocGet (assocRemove l k) k = none := by
  induction l with
  | nil => simp [assocRemove, assocGet]
  | cons p t ih =>
      obtain ⟨a, b⟩ := p
      have ndc := List.nodup_cons.mp (show (a :: keysOf t).Nodup from nd)
      by_cases ha : a = k
      · subst ha
        simp [assocRemove]
        exact assocGet_eq_none.mpr ndc.1
      · simp [assocRemove, assocGet, ha]
        exact ih ndc.2

theorem keysOf_assocRemove_subset {l : List (α × β)} {k k' : α}
    (h : k' ∈ keysOf (assocRemove l k)) : k' ∈ keysOf l := by
  induction l with
  | nil => simp [assocRemove, keysOf] at h
  | cons p t ih =>
      obtain ⟨a, b⟩ := p
      by_cases ha : a = k
      · subst ha
        simp [assocRemove] at h
        exact List.mem_cons.mpr (Or.inr h)
      · rcases List.mem_cons.mp
          (show k' ∈ a :: keysOf (assocRemove t k) by
            simpa [assocRemove, ha, keysOf] using h) with h1 | h1
        · exact List.mem_cons.mpr (Or.inl h1)
        · exact List.mem_cons.mpr (Or.inr (ih h1))

theorem mem_keysOf_assocRemove {l : List (α × β)} {k k' : α}
    (nd : (keysOf l).Nodup) :
    k' ∈ keysOf (assocRemove l k) ↔ k' ∈ keysOf l ∧ k' ≠ k := by
  induction l with
  | nil => simp [assocRemove, keysOf]
  | cons p t ih =>
      obtain ⟨a, b⟩ := p
      have ndc := List.nodup_cons.mp (show (a :: keysOf t).Nodup from nd)
      by_cases ha : a = k
      · subst ha
        have hred : assocRemove ((a, b) :: t) a = t := by simp [assocRemove]
        rw [hred]
        constructor
        · intro h
          refine ⟨List.mem_cons.mpr (Or.inr h), ?_⟩
          intro hk
          subst hk
          exact ndc.1 h
        · rintro ⟨h, hne⟩
          rcases List.mem_cons.mp (show k' ∈ a :: keysOf t from h) with h1 | h1
          · exact absurd h1 hne
          · exact h1
      · have hred : assocRemove ((a, b) :: t) k = (a, b) :: assocRemove t k := by
          simp [assocRemove, ha]
        rw [hred]
        constructor
        · intro h
          rcases List.mem_cons.mp
            (show k' ∈ a :: keysOf (assocRemove t k) from h) with h1 | h1
          · subst h1
            exact ⟨List.mem_cons_self _ _, fun hh => ha hh⟩
          · have := (ih ndc.2).mp h1
            exact ⟨List.mem_cons.mpr (Or.inr this.1), this.2⟩
        · rintro ⟨h, hne⟩
          rcases List.mem_cons.mp (show k' ∈ a :: keysOf t from h) with h1 | h1
          · subst h1
            exact List.mem_cons_self _ _
          · exact List.mem_cons.mpr (Or.inr ((ih ndc.2).mpr ⟨h1, hne⟩))

theorem nodup_keysOf_assocRemove {l : List (α × β)} {k : α}
    (nd : (keysOf l).Nodup) : (keysOf (assocRemove l k)).Nodup := by
  induction l with
  | nil => simp [assocRemove, keysOf]
  | cons p t ih =>
      obtain ⟨a, b⟩ := p
      have ndc := List.nodup_cons.mp (show (a :: keysOf t).Nodup from nd)
      by_cases ha : a = k
      · subst ha
        simpa [assocRemove] using ndc.2
      · have hred : assocRemove ((a, b) :: t) k = (a, b) :: assocRemove t k := by
          simp [assocRemove, ha]
        rw [hred]
        refine List.nodup_cons.mpr ⟨?_, ih ndc.2⟩
        intro hx
        exact ndc.1 (keysOf_assocRemove_subset hx)

theorem assocRemove_of_not_mem {l : List (α × β)} {k : α}
    (h : k ∉ keysOf l) : assocRemove l k = l := by
  induction l with
  | nil => simp [assocRemove]
  | cons p t ih =>
      obtain ⟨a, b⟩ := p
      have hmem := List.mem_cons.not.mp (show ¬k ∈ a :: keysOf t from h)
      push_neg at hmem
      have ha : a ≠ k := fun hh => hmem.1 hh.symm
      simp [assocRemove, ha]
      exact ih hmem.2

theorem mem_addElem {l : List α} {x y : α} :
    y ∈ addElem l x ↔ y ∈ l ∨ y = x := by
  by_cases h : x ∈ l
  · simp [addElem, h]
    intro hy
    subst hy
    exact h
  · simp [addElem, h]

theorem nodup_addElem {l : List α} {x : α} (nd : l.Nodup) :
    (addElem l x).Nodup := by
  by_cases h : x ∈ l
  · simpa [addElem, h] using nd
  · rw [addElem, if_neg h]
    exact List.Nodup.append nd (List.nodup_singleton x)
      (List.disjoint_singleton.mpr h)

theorem assocGet_append_left {l1 l2 : List (α × β)} {k : α} {v : β}
    (h : assocGet l1 k = some v) : assocGet (l1 ++ l2) k = some v := by
  induction l1 with
  | nil => simp [assocGet] at h
  | cons p t ih =>
      obtain ⟨a, b⟩ := p
      by_cases ha : a = k <;> simp [assocGet, ha] at h ⊢
      · exact h
      · exact ih h

theorem assocGet_append_right {l1 l2 : List (α × β)} {k : α}
    (h : assocGet l1 k = none) : assocGet (l1 ++ l2) k = assocGet l2 k := by
  induction l1 with
  | nil => simp [assocGet]
  | cons p t ih =>
      obtain ⟨a, b⟩ := p
      by_cases ha : a = k <;> simp [assocGet, ha] at h ⊢
      exact ih h

end AssocLemmas

/-! ## Index lemmas -/

open Collection

theorem idxGet_nil {v : Val} : idxGet ([] : Index) v = [] := rfl

theorem idxGet_eq_nil_of_not_mem {idx : Index} {v : Val}
    (h : v ∉ keysOf idx) : idxGet idx v = [] := by
  rw [idxGet, assocGet_eq_none.mpr h]
  rfl

theorem idxGet_idxAdd {idx : Index} {v x w : Val} :
    idxGet (idxAdd idx v x) w =
      if w = v then addElem (idxGet idx v) x else idxGet idx w := by
  rcases hg : assocGet idx v with _ | g
  · rw [idxAdd, hg]
    by_cases hw : w = v
    · subst hw
      rw [if_pos rfl, idxGet, assocGet_append_right hg, idxGet, hg]
      simp [assocGet, addElem]
    · have hvw : ¬ v = w := fun h => hw h.symm
      rw [if_neg hw, idxGet, idxGet]
      rcases hw2 : assocGet idx w with _ | gw
      · rw [assocGet_append_right hw2]
        simp [assocGet, hvw]
      · rw [assocGet_append_left hw2]
  · rw [idxAdd, hg]
    by_cases hw : w = v
    · subst hw
      rw [if_pos rfl, idxGet, assocGet_assocSet_self]
      simp [idxGet, hg]
    · rw [if_neg hw, idxGet, assocGet_assocSet_ne hw, idxGet]

theorem nodup_keysOf_idxAdd {idx : Index} {v x : Val}
    (nd : (keysOf idx).Nodup) : (keysOf (idxAdd idx v x)).Nodup := by
  rcases hg : assocGet idx v with _ | g
  · rw [idxAdd, hg]
    have hv : v ∉ keysOf idx := assocGet_eq_none.mp hg
    have hk : keysOf (idx ++ [(v, [x])]) = keysOf idx ++ [v] := by simp [keysOf]
    rw [hk]
    exact List.Nodup.append nd (List.nodup_singleton v)
      (List.disjoint_singleton.mpr hv)
  · rw [idxAdd, hg]
    exact nodup_keysOf_assocSet nd

theorem nodup_idxGet_idxAdd {idx : Index} {v x w : Val}
    (nd : ∀ u, (idxGet idx u).Nodup) : (idxGet (idxAdd idx v x) w).Nodup := by
  rw [idxGet_idxAdd]
  by_cases hw : w = v
  · simpa [hw] using nodup_addElem (nd v)
  · simpa [hw] using nd w

theorem mem_foldl_addElem {g acc : List Val} {x : Val} :
    x ∈ g.foldl addElem acc ↔ x ∈ acc ∨ x ∈ g := by
  induction g generalizing acc with
  | nil => simp
  | cons y t ih =>
      simp only [List.foldl_cons, ih, mem_addElem, List.mem_cons]
      tauto

theorem nodup_foldl_addElem {g acc : List Val} (nd : acc.Nodup) :
    (g.foldl addElem acc).Nodup := by
  induction g generalizing acc with
  | nil => simpa
  | cons y t ih => exact ih (nodup_addElem nd)

theorem idxGet_idxMergeOne {idx : Index} {v w : Val} {g : List Val} :
    idxGet (idxMergeOne idx v g) w =
      if w = v then g.foldl addElem (idxGet idx v) else idxGet idx w := by
  by_cases hw : w = v
  · subst hw
    rw [idxMergeOne, if_pos rfl, idxGet, assocGet_assocSet_self]
    rfl
  · rw [idxMergeOne, if_neg hw, idxGet, assocGet_assocSet_ne hw, idxGet]

theorem nodup_keysOf_idxMergeOne {idx : Index} {v : Val} {g : List Val}
    (nd : (keysOf idx).Nodup) : (keysOf (idxMergeOne idx v g)).Nodup := by
  rw [idxMergeOne]
  exact nodup_keysOf_assocSet nd

theorem mem_idxGet_idxMerge {idx tmp : Index} {w x : Val}
    (ndtmp : (keysOf tmp).Nodup) :
    x ∈ idxGet (idxMerge idx tmp) w ↔ x ∈ idxGet idx w ∨ x ∈ idxGet tmp w := by
  induction tmp generalizing idx with
  | nil => simp [idxMerge, idxGet_nil]
  | cons vg rest ih =>
      obtain ⟨v, g⟩ := vg
      have ndc := List.nodup_cons.mp (show (v :: keysOf rest).Nodup from ndtmp)
      have hstep : idxMerge idx ((v, g) :: rest) = idxMerge (idxMergeOne idx v g) rest := by
        simp [idxMerge]
      rw [hstep, ih ndc.2]
      by_cases hw : w = v
      · subst hw
        have hrest : idxGet rest w = [] :=
          idxGet_eq_nil_of_not_mem ndc.1
        rw [idxGet_idxMergeOne, if_pos rfl, hrest]
        have : idxGet ((w, g) :: rest) w = g := by
          rw [idxGet]
          simp [assocGet]
        rw [this, mem_foldl_addElem]
        tauto
      · rw [idxGet_idxMergeOne, if_neg hw]
        have hvw : ¬ v = w := fun h => hw h.symm
        have : idxGet ((v, g) :: rest) w = idxGet rest w := by
          rw [idxGet, idxGet]
          simp [assocGet, hvw]
        rw [this]

theorem nodup_keysOf_idxMerge {idx tmp : Index}
    (nd : (keysOf idx).Nodup) : (keysOf (idxMerge idx tmp)).Nodup := by
  induction tmp generalizing idx with
  | nil => simpa [idxMerge]
  | cons vg rest ih =>
      obtain ⟨v, g⟩ := vg
      have hstep : idxMerge idx ((v, g) :: rest) = idxMerge (idxMergeOne idx v g) rest := by
        simp [idxMerge]
      rw [hstep]
      exact ih (nodup_keysOf_idxMergeOne nd)

theorem nodup_idxGet_idxMerge {idx tmp : Index} {w : Val}
    (nd : ∀ u, (idxGet idx u).Nodup) :
    (idxGet (idxMerge idx tmp) w).Nodup := by
  induction tmp generalizing idx with
  | nil => simpa [idxMerge] using nd w
  | cons vg rest ih =>
      obtain ⟨v, g⟩ := vg
      have hstep : idxMerge idx ((v, g) :: rest) = idxMerge (idxMergeOne idx v g) rest := by
        simp [idxMerge]
      rw [hstep]
      refine ih ?_
      intro u
      rw [idxGet_idxMergeOne]
      by_cases hu : u = v
      · simpa [hu] using nodup_foldl_addElem (nd v)
      · simpa [hu] using nd u

theorem mem_keysOf_removeIdFromIndex {idx : Index} {_id : String} {v : Val}
    (h : v ∈ keysOf (removeIdFromIndex idx _id)) : v ∈ keysOf idx := by
  rw [keysOf] at h
  rcases List.mem_map.mp h with ⟨pr, hpr, hfst⟩
  have hpr2 := (List.mem_filter.mp hpr).1
  rcases List.mem_map.mp hpr2 with ⟨orig, horig, hform⟩
  subst hform
  subst hfst
  show orig.1 ∈ keysOf idx
  exact List.mem_map_of_mem Prod.fst horig

theorem nodup_keysOf_removeIdFromIndex {idx : Index} {_id : String}
    (nd : (keysOf idx).Nodup) : (keysOf (removeIdFromIndex idx _id)).Nodup := by
  have h1 : (removeIdFromIndex idx _id).Sublist
      (idx.map fun vg => (vg.1, vg.2.erase (Val.str _id))) :=
    List.filter_sublist _
  have h2 : (keysOf (removeIdFromIndex idx _id)).Sublist
      (keysOf (idx.map fun vg => (vg.1, vg.2.erase (Val.str _id)))) :=
    List.Sublist.map Prod.fst h1
  have h3 : keysOf (idx.map fun vg => (vg.1, vg.2.erase (Val.str _id))) = keysOf idx := by
    simp [keysOf, Function.comp]
  rw [h3] at h2
  exact List.Nodup.sublist h2 nd

theorem idxGet_removeIdFromIndex {idx : Index} {_id : String} {v : Val}
    (nd : (keysOf idx).Nodup) :
    idxGet (removeIdFromIndex idx _id) v = (idxGet idx v).erase (Val.str _id) := by
  induction idx with
  | nil => simp [removeIdFromIndex, idxGet, assocGet]
  | cons wg t ih =>
      obtain ⟨w, g⟩ := wg
      have ndc := List.nodup_cons.mp (show (w :: keysOf t).Nodup from nd)
      have hred : removeIdFromIndex ((w, g) :: t) _id =
          if g.erase (Val.str _id) = [] then removeIdFromIndex t _id
          else (w, g.erase (Val.str _id)) :: removeIdFromIndex t _id := by
        by_cases hg : g.erase (Val.str _id) = [] <;>
          simp [removeIdFromIndex, List.filter_cons, hg]
      by_cases hg : g.erase (Val.str _id) = []
      · rw [hred, if_pos hg]
        by_cases hv : v = w
        · subst hv
          have hnk : v ∉ keysOf (removeIdFromIndex t _id) :=
            fun hmem => ndc.1 (mem_keysOf_removeIdFromIndex hmem)
          rw [idxGet_eq_nil_of_not_mem hnk]
          have : idxGet ((v, g) :: t) v = g := by simp [idxGet, assocGet]
          rw [this, hg]
        · have hwv : ¬ w = v := fun hh => hv hh.symm
          have : idxGet ((w, g) :: t) v = idxGet t v := by simp [idxGet, assocGet, hwv]
          rw [this, ih ndc.2]
      · rw [hred, if_neg hg]
        by_cases hv : v = w
        · subst hv
          have h1 : idxGet ((v, g.erase (Val.str _id)) :: removeIdFromIndex t _id) v =
              g.erase (Val.str _id) := by simp [idxGet, assocGet]
          have h2 : idxGet ((v, g) :: t) v = g := by simp [idxGet, assocGet]
          rw [h1, h2]
        · have hwv : ¬ w = v := fun hh => hv hh.symm
          have h1 : idxGet ((w, g.erase (Val.str _id)) :: removeIdFromIndex t _id) v =
              idxGet (removeIdFromIndex t _id) v := by simp [idxGet, assocGet, hwv]
          have h2 : idxGet ((w, g) :: t) v = idxGet t v := by simp [idxGet, assocGet, hwv]
          rw [h1, h2, ih ndc.2]

theorem nodup_idxGet_removeIdFromIndex {idx : Index} {_id : String} {v : Val}
    (ndK : (keysOf idx).Nodup) (ndB : ∀ u, (idxGet idx u).Nodup) :
    (idxGet (removeIdFromIndex idx _id) v).Nodup := by
  rw [idxGet_removeIdFromIndex ndK]
  exact (ndB v).erase _

theorem foldl_removeId_keysOf_nodup {dirty : List String} {idx : Index}
    (nd : (keysOf idx).Nodup) :
    (keysOf (dirty.foldl removeIdFromIndex idx)).Nodup := by
  induction dirty generalizing idx with
  | nil => simpa
  | cons d rest ih => exact ih (nodup_keysOf_removeIdFromIndex nd)

theorem foldl_removeId_buckets_nodup {dirty : List String} {idx : Index} {v : Val}
    (ndK : (keysOf idx).Nodup) (ndB : ∀ u, (idxGet idx u).Nodup) :
    (idxGet (dirty.foldl removeIdFromIndex idx) v).Nodup := by
  induction dirty generalizing idx with
  | nil => simpa using ndB v
  | cons d rest ih =>
      exact ih (nodup_keysOf_removeIdFromIndex ndK)
        (fun u => nodup_idxGet_removeIdFromIndex ndK ndB)

theorem mem_idxGet_foldl_removeId {dirty : List String} {idx : Index} {v x : Val}
    (ndK : (keysOf idx).Nodup) (ndB : ∀ u, (idxGet idx u).Nodup) :
    x ∈ idxGet (dirty.foldl removeIdFromIndex idx) v ↔
      x ∈ idxGet idx v ∧ ∀ d ∈ dirty, x ≠ Val.str d := by
  induction dirty generalizing idx with
  | nil => simp
  | cons d rest ih =>
      have hstep : (d :: rest).foldl removeIdFromIndex idx =
          rest.foldl removeIdFromIndex (removeIdFromIndex idx d) := by
        simp
      rw [hstep, ih (nodup_keysOf_removeIdFromIndex ndK)
        (fun u => nodup_idxGet_removeIdFromIndex ndK ndB)]
      rw [idxGet_removeIdFromIndex ndK]
      rw [List.Nodup.mem_erase_iff (ndB v)]
      constructor
      · rintro ⟨⟨hne, hmem⟩, hrest⟩
        refine ⟨hmem, ?_⟩
        intro e he
        rcases List.mem_cons.mp he with he1 | he1
        · subst he1; exact hne
        · exact hrest e he1
      · rintro ⟨hmem, hall⟩
        exact ⟨⟨hall d (List.mem_cons_self _ _), hmem⟩,
          fun e he => hall e (List.mem_cons.mpr (Or.inr he))⟩

theorem foldl_remove_from_indeces {dirty : List String}
    {ind : List (String × Index)} :
    dirty.foldl _remove_from_indeces ind =
      ind.map fun ki => (ki.1, dirty.foldl removeIdFromIndex ki.2) := by
  induction dirty generalizing ind with
  | nil => simp
  | cons d rest ih =>
      have hstep : (d :: rest).foldl _remove_from_indeces ind =
          rest.foldl _remove_from_indeces (_remove_from_indeces ind d) := by
        simp
      rw [hstep, ih]
      rw [_remove_from_indeces, List.map_map]
      rfl

open Collection

theorem exBind_ok {ε α β : Type} {a : α} {f : α → Except ε β} :
    (Except.ok a >>= f) = f a := rfl

theorem exBind_err {ε α β : Type} {e : ε} {f : α → Except ε β} :
    ((Except.error e : Except ε α) >>= f) = .error e := rfl

theorem exPure_eq {ε α : Type} {a : α} : (pure a : Except ε α) = .ok a := rfl

theorem mem_idxGet_idxAdd {idx : Index} {v x w y : Val} :
    y ∈ idxGet (idxAdd idx v x) w ↔ y ∈ idxGet idx w ∨ (w = v ∧ y = x) := by
  rw [idxGet_idxAdd]
  by_cases hw : w = v
  · subst hw
    simp [mem_addElem]
  · simp [hw]

theorem mem_build_step {key primary_key : String} {nodes : List String}
    {idx idx' : Index} {doc : Val} {v x : Val}
    (hn : nodes = splitDots key)
    (h : _build_index_step key primary_key nodes idx doc = .ok idx') :
    x ∈ idxGet idx' v ↔
      x ∈ idxGet idx v ∨
        (docGet doc primary_key = .ok x ∧ docMatch doc key v = true) := by
  subst hn
  simp only [_build_index_step] at h
  rcases hwalk : _get_value doc (splitDots key) with e | w <;> rw [hwalk] at h
  · cases e
    · simp [exBind_err] at h
    · -- KeyError on the walk: the first phase skips the document
      by_cases hlen : 1 < (splitDots key).length
      · simp only [gt_iff_lt, if_pos hlen] at h
        rcases hlit : docGet doc key with e2 | v0 <;> rw [hlit] at h
        · cases e2
          · simp at h
          · -- literal key also absent: no contribution
            have hidx : idx = idx' := by simpa [exPure_eq, exBind_ok] using h
            subst hidx
            rcases doc with _ | _ | _ | _ | _ | fs
            iterate 5 simp [docGet] at hlit
            simp [docMatch, walkMatch, literalMatch, hwalk]
            rcases hfk : assocGet fs key with _ | u
            · simp
            · simp [docGet, hfk] at hlit
          · simp at h
          · simp at h
          · simp at h
        · rcases hpk : docGet doc primary_key with e3 | px <;> rw [hpk] at h
          · simp at h
          · have hidx : idxAdd idx (_encode_tree v0) px = idx' := by simpa [exPure_eq, exBind_ok] using h
            subst hidx
            rcases doc with _ | _ | _ | _ | _ | fs
            iterate 5 simp [docGet] at hlit
            rcases hfk : assocGet fs key with _ | u
            · simp [docGet, hfk] at hlit
            · simp [docGet, hfk] at hlit
              subst hlit
              simp [mem_idxGet_idxAdd, docMatch, walkMatch, literalMatch,
                hwalk, hlen, hfk, hpk, eq_comm]
              tauto
      · simp only [gt_iff_lt, if_neg hlen] at h
        have hidx : idx = idx' := by simpa [exPure_eq, exBind_ok] using h
        subst hidx
        simp [docMatch, walkMatch, literalMatch, hwalk, hlen]
    · simp [exBind_err] at h
    · simp [exBind_err] at h
    · simp [exBind_err] at h
  · -- the walk found a value
    rcases hpk : docGet doc primary_key with e3 | px <;> rw [hpk] at h
    · simp [exBind_err] at h
    · by_cases hlen : 1 < (splitDots key).length
      · simp only [gt_iff_lt, if_pos hlen, exBind_ok] at h
        rcases hlit : docGet doc key with e2 | v0 <;> rw [hlit] at h
        · cases e2
          · simp at h
          · -- walked hit only
            have hidx : idxAdd idx (_encode_tree w) px = idx' := by simpa [exPure_eq, exBind_ok] using h
            subst hidx
            rcases doc with _ | _ | _ | _ | _ | fs
            iterate 5 simp [docGet] at hlit
            rcases hfk : assocGet fs key with _ | u
            · simp [mem_idxGet_idxAdd, docMatch, walkMatch, literalMatch,
                hwalk, hlen, hfk, hpk, eq_comm]
              tauto
            · simp [docGet, hfk] at hlit
          · simp at h
          · simp at h
          · simp at h
        · -- both contribute
          have hidx : idxAdd (idxAdd idx (_encode_tree w) px) (_encode_tree v0) px = idx' := by
            simpa [exPure_eq, exBind_ok] using h
          subst hidx
          rcases doc with _ | _ | _ | _ | _ | fs
          iterate 5 simp [docGet] at hlit
          rcases hfk : assocGet fs key with _ | u
          · simp [docGet, hfk] at hlit
          · simp [docGet, hfk] at hlit
            subst hlit
            rw [mem_idxGet_idxAdd, mem_idxGet_idxAdd]
            simp [docMatch, walkMatch, literalMatch, hwalk, hlen, hfk, hpk]
            constructor
            · rintro ((hm | ⟨hv, hx⟩) | ⟨hv, hx⟩)
              · exact Or.inl hm
              · subst hx
                exact Or.inr ⟨rfl, Or.inl hv.symm⟩
              · subst hx
                exact Or.inr ⟨rfl, Or.inr hv.symm⟩
            · rintro (hm | ⟨hx, hv | hv⟩)
              · exact Or.inl (Or.inl hm)
              · subst hx
                exact Or.inl (Or.inr ⟨hv.symm, rfl⟩)
              · subst hx
                exact Or.inr ⟨hv.symm, rfl⟩
      · simp only [gt_iff_lt, if_neg hlen, exBind_ok] at h
        have hidx : idxAdd idx (_encode_tree w) px = idx' := by simpa [exPure_eq, exBind_ok] using h
        subst hidx
        simp [mem_idxGet_idxAdd, docMatch, walkMatch, literalMatch,
          hwalk, hlen, hpk, eq_comm]
        tauto

/-- Every successful `_build_index_step` returns the index unchanged or
with one or two `idxAdd`s applied. -/
theorem build_step_shape {key primary_key : String} {nodes : List String}
    {idx idx' : Index} {doc : Val}
    (h : _build_index_step key primary_key nodes idx doc = .ok idx') :
    idx' = idx ∨ (∃ a b, idx' = idxAdd idx a b) ∨
      (∃ a b c d, idx' = idxAdd (idxAdd idx a b) c d) := by
  simp only [_build_index_step] at h
  rcases hwalk : _get_value doc nodes with e | w <;> rw [hwalk] at h
  · cases e
    · simp [exBind_err] at h
    · by_cases hlen : 1 < nodes.length
      · simp only [gt_iff_lt, if_pos hlen] at h
        rcases hlit : docGet doc key with e2 | v0 <;> rw [hlit] at h
        · cases e2
          · simp [exBind_ok, exBind_err] at h
          · have h2 : Except.ok idx = Except.ok idx' := h
            exact Or.inl (Except.ok.inj h2).symm
          · simp [exBind_ok, exBind_err] at h
          · simp [exBind_ok, exBind_err] at h
          · simp [exBind_ok, exBind_err] at h
        · rcases hpk : docGet doc primary_key with e3 | px <;> rw [hpk] at h
          · simp [exBind_ok, exBind_err] at h
          · have h2 : Except.ok (idxAdd idx (_encode_tree v0) px) = Except.ok idx' := h
            exact Or.inr (Or.inl ⟨_, _, (Except.ok.inj h2).symm⟩)
      · simp only [gt_iff_lt, if_neg hlen] at h
        have h2 : Except.ok idx = Except.ok idx' := h
        exact Or.inl (Except.ok.inj h2).symm
    · simp [exBind_err] at h
    · simp [exBind_err] at h
    · simp [exBind_err] at h
  · rcases hpk : docGet doc primary_key with e3 | px <;> rw [hpk] at h
    · simp [exBind_err] at h
    · by_cases hlen : 1 < nodes.length
      · simp only [gt_iff_lt, if_pos hlen] at h
        rcases hlit : docGet doc key with e2 | v0 <;> rw [hlit] at h
        · cases e2
          · simp [exBind_ok, exBind_err] at h
          · have h2 : Except.ok (idxAdd idx (_encode_tree w) px) = Except.ok idx' := h
            exact Or.inr (Or.inl ⟨_, _, (Except.ok.inj h2).symm⟩)
          · simp [exBind_ok, exBind_err] at h
          · simp [exBind_ok, exBind_err] at h
          · simp [exBind_ok, exBind_err] at h
        · have h2 : Except.ok (idxAdd (idxAdd idx (_encode_tree w) px)
              (_encode_tree v0) px) = Except.ok idx' := h
          exact Or.inr (Or.inr ⟨_, _, _, _, (Except.ok.inj h2).symm⟩)
      · simp only [gt_iff_lt, if_neg hlen] at h
        have h2 : Except.ok (idxAdd idx (_encode_tree w) px) = Except.ok idx' := h
        exact Or.inr (Or.inl ⟨_, _, (Except.ok.inj h2).symm⟩)

theorem build_step_keys_nodup {key primary_key : String} {nodes : List String}
    {idx idx' : Index} {doc : Val}
    (h : _build_index_step key primary_key nodes idx doc = .ok idx')
    (nd : (keysOf idx).Nodup) : (keysOf idx').Nodup := by
  rcases build_step_shape h with rfl | ⟨a, b, rfl⟩ | ⟨a, b, c, d, rfl⟩
  · exact nd
  · exact nodup_keysOf_idxAdd nd
  · exact nodup_keysOf_idxAdd (nodup_keysOf_idxAdd nd)

theorem build_step_buckets_nodup {key primary_key : String} {nodes : List String}
    {idx idx' : Index} {doc : Val}
    (h : _build_index_step key primary_key nodes idx doc = .ok idx')
    (nd : ∀ u, (idxGet idx u).Nodup) : ∀ u, (idxGet idx' u).Nodup := by
  rcases build_step_shape h with rfl | ⟨a, b, rfl⟩ | ⟨a, b, c, d, rfl⟩
  · exact nd
  · exact fun u => nodup_idxGet_idxAdd nd
  · exact fun u => nodup_idxGet_idxAdd fun u' => nodup_idxGet_idxAdd nd

theorem mem_build_fold {docs : List Val} {key primary_key : String} :
    ∀ {init tmp : Index},
      docs.foldlM (_build_index_step key primary_key (splitDots key))
        init = .ok tmp →
    ∀ {v x : Val},
      (x ∈ idxGet tmp v ↔
        x ∈ idxGet init v ∨
          ∃ doc ∈ docs, docGet doc primary_key = .ok x ∧ docMatch doc key v = true) := by
  induction docs with
  | nil =>
      intro init tmp h v x
      simp only [List.foldlM_nil] at h
      have h2 : Except.ok init = Except.ok tmp := h
      rw [(Except.ok.inj h2)]
      simp
  | cons d rest ih =>
      intro init tmp h v x
      rw [List.foldlM_cons] at h
      rcases hstep : _build_index_step key primary_key (splitDots key) init d
        with e | i1 <;> rw [hstep] at h
      · simp [exBind_err] at h
      · rw [exBind_ok] at h
        rw [ih h, mem_build_step rfl hstep]
        constructor
        · rintro ((hm | hd) | ⟨doc, hdoc, hx⟩)
          · exact Or.inl hm
          · exact Or.inr ⟨d, List.mem_cons_self _ _, hd⟩
          · exact Or.inr ⟨doc, List.mem_cons.mpr (Or.inr hdoc), hx⟩
        · rintro (hm | ⟨doc, hdoc, hx⟩)
          · exact Or.inl (Or.inl hm)
          · rcases List.mem_cons.mp hdoc with rfl | hdoc2
            · exact Or.inl (Or.inr hx)
            · exact Or.inr ⟨doc, hdoc2, hx⟩

theorem mem_build_index {docs : List Val} {key primary_key : String}
    {tmp : Index} {v x : Val}
    (h : _build_index docs key primary_key = .ok tmp) :
    x ∈ idxGet tmp v ↔
      ∃ doc ∈ docs, docGet doc primary_key = .ok x ∧ docMatch doc key v = true := by
  rw [_build_index] at h
  rw [mem_build_fold h]
  simp [idxGet_nil]

theorem build_fold_keys_nodup {docs : List Val} {key primary_key : String} :
    ∀ {init tmp : Index},
      docs.foldlM (_build_index_step key primary_key (splitDots key))
        init = .ok tmp →
      (keysOf init).Nodup → (keysOf tmp).Nodup := by
  induction docs with
  | nil =>
      intro init tmp h nd
      simp only [List.foldlM_nil] at h
      have h2 : Except.ok init = Except.ok tmp := h
      rw [← (Except.ok.inj h2)]
      exact nd
  | cons d rest ih =>
      intro init tmp h nd
      rw [List.foldlM_cons] at h
      rcases hstep : _build_index_step key primary_key (splitDots key) init d
        with e | i1 <;> rw [hstep] at h
      · simp [exBind_err] at h
      · rw [exBind_ok] at h
        exact ih h (build_step_keys_nodup hstep nd)

theorem build_fold_buckets_nodup {docs : List Val} {key primary_key : String} :
    ∀ {init tmp : Index},
      docs.foldlM (_build_index_step key primary_key (splitDots key))
        init = .ok tmp →
      (∀ u, (idxGet init u).Nodup) → ∀ u, (idxGet tmp u).Nodup := by
  induction docs with
  | nil =>
      intro init tmp h nd
      simp only [List.foldlM_nil] at h
      have h2 : Except.ok init = Except.ok tmp := h
      rw [← (Except.ok.inj h2)]
      exact nd
  | cons d rest ih =>
      intro init tmp h nd
      rw [List.foldlM_cons] at h
      rcases hstep : _build_index_step key primary_key (splitDots key) init d
        with e | i1 <;> rw [hstep] at h
      · simp [exBind_err] at h
      · rw [exBind_ok] at h
        exact ih h (build_step_buckets_nodup hstep nd)

theorem build_index_keys_nodup {docs : List Val} {key primary_key : String}
    {tmp : Index} (h : _build_index docs key primary_key = .ok tmp) :
    (keysOf tmp).Nodup := by
  rw [_build_index] at h
  exact build_fold_keys_nodup h (by simp [keysOf])

theorem build_index_buckets_nodup {docs : List Val} {key primary_key : String}
    {tmp : Index} (h : _build_index docs key primary_key = .ok tmp) :
    ∀ u, (idxGet tmp u).Nodup := by
  rw [_build_index] at h
  exact build_fold_buckets_nodup h (by simp [idxGet_nil])

/-! ## Refresh (`_update_indeces`) characterisation -/

theorem getitem_spec {c : Collection} {ds : List (String × Val)}
    {_id : String} {doc : Val} (hds : c.docs = some ds) :
    c.getitem _id = .ok doc ↔ assocGet ds _id = some doc := by
  rw [Collection.getitem, Collection._assert_open, hds]
  rcases hget : assocGet ds _id with _ | d
  · simp [exBind_ok, hget]
  · simp [exBind_ok, hget]

theorem mapM_getitem_mem {c : Collection} {ds : List (String × Val)}
    (hds : c.docs = some ds) :
    ∀ {ids : List String} {docsL : List Val},
      ids.mapM c.getitem = .ok docsL →
      ∀ doc, (doc ∈ docsL ↔ ∃ _id ∈ ids, assocGet ds _id = some doc) := by
  intro ids
  induction ids with
  | nil =>
      intro docsL h doc
      simp only [List.mapM_nil] at h
      have h2 : Except.ok ([] : List Val) = Except.ok docsL := h
      rw [← Except.ok.inj h2]
      simp
  | cons i rest ih =>
      intro docsL h doc
      rw [List.mapM_cons] at h
      rcases hget : c.getitem i with e | d <;> rw [hget] at h
      · simp [exBind_err] at h
      · rw [exBind_ok] at h
        rcases hrest : rest.mapM c.getitem with e | dr <;> rw [hrest] at h
        · simp [exBind_err] at h
        · rw [exBind_ok] at h
          have h2 : Except.ok (d :: dr) = Except.ok docsL := h
          rw [← Except.ok.inj h2]
          rw [List.mem_cons]
          constructor
          · rintro (rfl | hmem)
            · exact ⟨i, List.mem_cons_self _ _, (getitem_spec hds).mp hget⟩
            · rcases (ih hrest doc).mp hmem with ⟨j, hj, hgj⟩
              exact ⟨j, List.mem_cons.mpr (Or.inr hj), hgj⟩
          · rintro ⟨j, hj, hgj⟩
            rcases List.mem_cons.mp hj with rfl | hj2
            · have := (getitem_spec hds).mp hget
              rw [this] at hgj
              exact Or.inl (Option.some.inj hgj).symm
            · exact Or.inr ((ih hrest doc).mpr ⟨j, hj2, hgj⟩)

theorem mapM_merge_entries {docsL : List Val} {pk : String} :
    ∀ {ind ind2 : List (String × Index)},
      (ind.mapM fun ki => do
        let tmp ← _build_index docsL ki.1 pk
        pure (ki.1, idxMerge ki.2 tmp)) = .ok ind2 →
      keysOf ind2 = keysOf ind ∧
      ∀ k i2, (k, i2) ∈ ind2 →
        ∃ i1 tmp, (k, i1) ∈ ind ∧ _build_index docsL k pk = .ok tmp ∧
          i2 = idxMerge i1 tmp := by
  intro ind
  induction ind with
  | nil =>
      intro ind2 h
      simp only [List.mapM_nil] at h
      have h2 : Except.ok ([] : List (String × Index)) = Except.ok ind2 := h
      rw [← Except.ok.inj h2]
      simp [keysOf]
  | cons ki rest ih =>
      intro ind2 h
      obtain ⟨k0, i0⟩ := ki
      rw [List.mapM_cons] at h
      rcases hb : _build_index docsL k0 pk with e | tmp0 <;> rw [hb] at h
      · simp [exBind_err] at h
      · rw [exBind_ok] at h
        rcases hrest : rest.mapM (fun ki => do
            let tmp ← _build_index docsL ki.1 pk
            pure (ki.1, idxMerge ki.2 tmp)) with e | ir <;> rw [hrest] at h
        · simp [exBind_err] at h
        · simp only [exPure_eq, exBind_ok] at h
          have h2 : Except.ok ((k0, idxMerge i0 tmp0) :: ir) = Except.ok ind2 := h
          rw [← Except.ok.inj h2]
          obtain ⟨hkeys, hmem⟩ := ih hrest
          constructor
          · simp only [keysOf, List.map_cons] at hkeys ⊢
            rw [hkeys]
          · intro k i2 hin
            rcases List.mem_cons.mp hin with heq | hin2
            · obtain ⟨hk, hi⟩ := Prod.mk.inj heq
              subst hk
              exact ⟨i0, tmp0, List.mem_cons_self _ _, hb, hi⟩
            · rcases hmem k i2 hin2 with ⟨i1, tmp, hin1, hbb, hi⟩
              exact ⟨i1, tmp, List.mem_cons.mpr (Or.inr hin1), hbb, hi⟩

theorem docGet_of_pkField {doc : Val} {pk _id : String} {fs : List (String × Val)}
    (h1 : doc = .obj fs) (h2 : assocGet fs pk = some (.str _id)) :
    docGet doc pk = .ok (.str _id) := by
  subst h1
  simp [docGet, h2]

theorem keysOf_map_entries {ind : List (String × Index)}
    {f : String × Index → Index} :
    keysOf (ind.map fun ki => (ki.1, f ki)) = keysOf ind := by
  simp [keysOf, Function.comp]

/-- What a successful `_update_indeces` produces: everything but the
indices and the dirty set is untouched, the dirty set is cleared, the
index keys are preserved, and every index is now exact on every id. -/
theorem update_indeces_spec {c c' : Collection} {ds : List (String × Val)}
    (hds : c.docs = some ds)
    (hInv : InvOn c.primary_key ds c.dirty c.indeces)
    (h : c._update_indeces = .ok c') :
    c'.primary_key = c.primary_key ∧ c'.docs = c.docs ∧ c'.file = c.file ∧
    c'.requires_flush = c.requires_flush ∧ c'.dirty = [] ∧
    keysOf c'.indeces = keysOf c.indeces ∧
    InvOn c.primary_key ds [] c'.indeces := by
  rw [Collection._update_indeces] at h
  by_cases hdirty : c.dirty = []
  · rw [if_pos hdirty] at h
    have h2 : Except.ok c = Except.ok c' := h
    rw [← Except.ok.inj h2]
    rw [hdirty] at hInv
    exact ⟨rfl, rfl, rfl, rfl, hdirty, rfl, hInv⟩
  · rw [if_neg hdirty] at h
    rcases hdocsL : c.dirty.mapM c.getitem with e | docsL <;> rw [hdocsL] at h
    · simp [exBind_err] at h
    · rw [exBind_ok] at h
      rcases hind2 : (c.dirty.foldl _remove_from_indeces c.indeces).mapM
          (fun ki => do
            let tmp ← _build_index docsL ki.1 c.primary_key
            pure (ki.1, idxMerge ki.2 tmp)) with e | ind2 <;> rw [hind2] at h
      · simp [exBind_err] at h
      · rw [exBind_ok] at h
        have h2 : Except.ok { c with indeces := ind2, dirty := [] } = Except.ok c' := h
        rw [← Except.ok.inj h2]
        rw [foldl_remove_from_indeces] at hind2
        obtain ⟨hkeys2, hentry⟩ := mapM_merge_entries hind2
        refine ⟨rfl, rfl, rfl, rfl, rfl, ?_, ?_⟩
        · simpa [keysOf_map_entries] using hkeys2
        · -- the full-consistency invariant on the new indices
          have hmemdocs := mapM_getitem_mem hds hdocsL
          refine ⟨hInv.nodupKeys, hInv.pkField, List.nodup_nil, ?_, ?_, ?_, ?_, ?_⟩
          · intro _id hmem
            simp at hmem
          · -- index keys stay duplicate-free
            intro key idx hin
            rcases hentry key idx hin with ⟨i1, tmp, hin1, hbuild, rfl⟩
            rcases List.mem_map.mp hin1 with ⟨ki, hki, hform⟩
            have hk1 : ki.1 = key := congrArg Prod.fst hform
            have hi1 : c.dirty.foldl removeIdFromIndex ki.2 = i1 :=
              congrArg Prod.snd hform
            have horig : (key, ki.2) ∈ c.indeces := by
              rw [← hk1]
              exact hki
            have ndK := hInv.idxKeysNodup key ki.2 horig
            rw [← hi1]
            exact nodup_keysOf_idxMerge (foldl_removeId_keysOf_nodup ndK)
          · -- buckets stay duplicate-free
            intro key idx hin v
            rcases hentry key idx hin with ⟨i1, tmp, hin1, hbuild, rfl⟩
            rcases List.mem_map.mp hin1 with ⟨ki, hki, hform⟩
            have hk1 : ki.1 = key := congrArg Prod.fst hform
            have hi1 : c.dirty.foldl removeIdFromIndex ki.2 = i1 :=
              congrArg Prod.snd hform
            have horig : (key, ki.2) ∈ c.indeces := by
              rw [← hk1]
              exact hki
            have ndK := hInv.idxKeysNodup key ki.2 horig
            have ndB := hInv.idxBucketsNodup key ki.2 horig
            rw [← hi1]
            exact nodup_idxGet_idxMerge
              (fun u => foldl_removeId_buckets_nodup ndK ndB)
          · -- buckets hold only string ids
            intro key idx hin v x hx
            rcases hentry key idx hin with ⟨i1, tmp, hin1, hbuild, rfl⟩
            rcases List.mem_map.mp hin1 with ⟨ki, hki, hform⟩
            have hk1 : ki.1 = key := congrArg Prod.fst hform
            have hi1 : c.dirty.foldl removeIdFromIndex ki.2 = i1 :=
              congrArg Prod.snd hform
            have horig : (key, ki.2) ∈ c.indeces := by
              rw [← hk1]
              exact hki
            have ndK := hInv.idxKeysNodup key ki.2 horig
            have ndB := hInv.idxBucketsNodup key ki.2 horig
            rw [← hi1] at hx
            rcases (mem_idxGet_idxMerge (build_index_keys_nodup hbuild)).mp hx
              with h1 | h1
            · have := (mem_idxGet_foldl_removeId ndK ndB).mp h1
              exact hInv.idxStr key ki.2 horig v x this.1
            · rcases (mem_build_index hbuild).mp h1 with ⟨doc, hdoc, hpk, _⟩
              rcases (hmemdocs doc).mp hdoc with ⟨_id, hdirtymem, hget⟩
              rcases hInv.pkField _id doc hget with ⟨fs, hobj, hfield⟩
              have := docGet_of_pkField hobj hfield
              rw [this] at hpk
              exact ⟨_id, (Except.ok.inj hpk).symm⟩
          · -- exactness on every id
            intro key idx hin v _id _
            rcases hentry key idx hin with ⟨i1, tmp, hin1, hbuild, rfl⟩
            rcases List.mem_map.mp hin1 with ⟨ki, hki, hform⟩
            have hk1 : ki.1 = key := congrArg Prod.fst hform
            have hi1 : c.dirty.foldl removeIdFromIndex ki.2 = i1 :=
              congrArg Prod.snd hform
            have horig : (key, ki.2) ∈ c.indeces := by
              rw [← hk1]
              exact hki
            have ndK := hInv.idxKeysNodup key ki.2 horig
            have ndB := hInv.idxBucketsNodup key ki.2 horig
            rw [← hi1]
            rw [mem_idxGet_idxMerge (build_index_keys_nodup hbuild)]
            rw [mem_idxGet_foldl_removeId ndK ndB]
            rw [mem_build_index hbuild]
            constructor
            · rintro (⟨hbkt, hnotd⟩ | ⟨doc, hdoc, hpk, hmatch⟩)
              · have hnd : _id ∉ c.dirty := by
                  intro hd
                  exact hnotd _id hd rfl
                exact (hInv.idxOK key ki.2 horig v _id hnd).mp hbkt
              · rcases (hmemdocs doc).mp hdoc with ⟨j, hj, hgetj⟩
                rcases hInv.pkField j doc hgetj with ⟨fs, hobj, hfield⟩
                have hdg := docGet_of_pkField hobj hfield
                rw [hdg] at hpk
                have : Val.str j = Val.str _id := Except.ok.inj hpk
                have hj2 : j = _id := Val.str.inj this
                subst hj2
                exact ⟨doc, hgetj, hmatch⟩
            · rintro ⟨doc, hget, hmatch⟩
              by_cases hd : _id ∈ c.dirty
              · refine Or.inr ⟨doc, (hmemdocs doc).mpr ⟨_id, hd, hget⟩, ?_, hmatch⟩
                rcases hInv.pkField _id doc hget with ⟨fs, hobj, hfield⟩
                exact docGet_of_pkField hobj hfield
              · refine Or.inl ⟨(hInv.idxOK key ki.2 horig v _id hd).mpr
                  ⟨doc, hget, hmatch⟩, ?_⟩
                intro d hdd heq
                exact hd (Val.str.inj heq ▸ hdd)

theorem mem_assocSet {α β : Type} [DecidableEq α]
    {l : List (α × β)} {k' k : α} {v' v : β}
    (h : (k', v') ∈ assocSet l k v) : (k', v') ∈ l ∨ (k' = k ∧ v' = v) := by
  induction l with
  | nil =>
      simp [assocSet] at h
      exact Or.inr h
  | cons p t ih =>
      obtain ⟨a, b⟩ := p
      by_cases ha : a = k
      · subst ha
        rw [assocSet, if_pos rfl] at h
        rcases List.mem_cons.mp h with heq | hmem
        · obtain ⟨h1, h2⟩ := Prod.mk.inj heq
          exact Or.inr ⟨h1, h2⟩
        · exact Or.inl (List.mem_cons.mpr (Or.inr hmem))
      · rw [assocSet, if_neg ha] at h
        rcases List.mem_cons.mp h with heq | hmem
        · exact Or.inl (List.mem_cons.mpr (Or.inl heq))
        · rcases ih hmem with h1 | h1
          · exact Or.inl (List.mem_cons.mpr (Or.inr h1))
          · exact Or.inr h1

theorem mem_map_snd_iff_assocGet {ds : List (String × Val)} {doc : Val}
    (nd : (keysOf ds).Nodup) :
    doc ∈ ds.map Prod.snd ↔ ∃ _id, assocGet ds _id = some doc := by
  constructor
  · intro h
    rcases List.mem_map.mp h with ⟨p, hp, hform⟩
    exact ⟨p.1, by
      have : (p.1, doc) ∈ ds := by
        rw [← hform]
        exact hp
      exact mem_assocGet nd this⟩
  · rintro ⟨_id, hget⟩
    have := assocGet_mem hget
    exact List.mem_map.mpr ⟨(_id, doc), this, rfl⟩

/-- A freshly built index over the whole table is exact on every id. -/
theorem fresh_index_exact {ds : List (String × Val)} {pk key : String}
    {idx : Index}
    (nd : (keysOf ds).Nodup)
    (pkF : ∀ _id doc, assocGet ds _id = some doc →
      ∃ fs, doc = .obj fs ∧ assocGet fs pk = some (.str _id))
    (h : _build_index (ds.map Prod.snd) key pk = .ok idx) :
    (∀ v x, x ∈ idxGet idx v → ∃ s, x = Val.str s) ∧
    (∀ v _id, Val.str _id ∈ idxGet idx v ↔
      ∃ doc, assocGet ds _id = some doc ∧ docMatch doc key v = true) := by
  constructor
  · intro v x hx
    rcases (mem_build_index h).mp hx with ⟨doc, hdoc, hpk, _⟩
    rcases (mem_map_snd_iff_assocGet nd).mp hdoc with ⟨_id, hget⟩
    rcases pkF _id doc hget with ⟨fs, hobj, hfield⟩
    have := docGet_of_pkField hobj hfield
    rw [this] at hpk
    exact ⟨_id, (Except.ok.inj hpk).symm⟩
  · intro v _id
    rw [mem_build_index h]
    constructor
    · rintro ⟨doc, hdoc, hpk, hmatch⟩
      rcases (mem_map_snd_iff_assocGet nd).mp hdoc with ⟨j, hget⟩
      rcases pkF j doc hget with ⟨fs, hobj, hfield⟩
      have hdg := docGet_of_pkField hobj hfield
      rw [hdg] at hpk
      have hj : j = _id := Val.str.inj (Except.ok.inj hpk)
      subst hj
      exact ⟨doc, hget, hmatch⟩
    · rintro ⟨doc, hget, hmatch⟩
      refine ⟨doc, (mem_map_snd_iff_assocGet nd).mpr ⟨_id, hget⟩, ?_, hmatch⟩
      rcases pkF _id doc hget with ⟨fs, hobj, hfield⟩
      exact docGet_of_pkField hobj hfield

theorem buildIndexFor_spec {c c' : Collection} {ds : List (String × Val)}
    {key : String}
    (hds : c.docs = some ds)
    (hInv : InvOn c.primary_key ds c.dirty c.indeces)
    (h : c.buildIndexFor key = .ok c') :
    c'.primary_key = c.primary_key ∧ c'.docs = c.docs ∧ c'.file = c.file ∧
    c'.requires_flush = c.requires_flush ∧ c'.dirty = c.dirty ∧
    InvOn c.primary_key ds c.dirty c'.indeces := by
  rw [Collection.buildIndexFor, hds] at h
  have h1 : (do
      let idx ← _build_index (ds.map Prod.snd) key c.primary_key
      pure { c with indeces := assocSet c.indeces key idx, docs := some ds })
      = Except.ok c' := h
  clear h
  rcases hb : _build_index (ds.map Prod.snd) key c.primary_key with e | idx <;>
    rw [hb] at h1
  · simp [exBind_err] at h1
  · rw [exBind_ok] at h1
    have h2 : Except.ok ({ c with indeces := assocSet c.indeces key idx, docs := some ds }) = Except.ok c' := h1
    rw [← Except.ok.inj h2]
    obtain ⟨hstr, hexact⟩ := fresh_index_exact hInv.nodupKeys hInv.pkField hb
    refine ⟨rfl, hds.symm, rfl, rfl, rfl,
      hInv.nodupKeys, hInv.pkField, hInv.dirtyNodup, hInv.dirtySub, ?_, ?_, ?_, ?_⟩
    · intro k i hin
      rcases mem_assocSet hin with hmem | ⟨rfl, rfl⟩
      · exact hInv.idxKeysNodup k i hmem
      · exact build_index_keys_nodup hb
    · intro k i hin v
      rcases mem_assocSet hin with hmem | ⟨rfl, rfl⟩
      · exact hInv.idxBucketsNodup k i hmem v
      · exact build_index_buckets_nodup hb v
    · intro k i hin v x hx
      rcases mem_assocSet hin with hmem | ⟨rfl, rfl⟩
      · exact hInv.idxStr k i hmem v x hx
      · exact hstr v x hx
    · intro k i hin v _id hnd
      rcases mem_assocSet hin with hmem | ⟨rfl, rfl⟩
      · exact hInv.idxOK k i hmem v _id hnd
      · exact hexact v _id

/-- What `index(key, build=True)` returns under the invariant: the
collection is refreshed (nothing dirty, indices exact), the table is
untouched, and the returned index is exact for `key` on every id. -/
theorem index_spec {c c₂ : Collection} {ds : List (String × Val)}
    {key : String} {idx : Index}
    (hds : c.docs = some ds)
    (hInv : InvOn c.primary_key ds c.dirty c.indeces)
    (h : c.index key true = .ok (idx, c₂)) :
    c₂.primary_key = c.primary_key ∧ c₂.docs = c.docs ∧ c₂.file = c.file ∧
    c₂.requires_flush = c.requires_flush ∧ c₂.dirty = [] ∧
    InvOn c.primary_key ds [] c₂.indeces ∧
    (∀ v x, x ∈ idxGet idx v → ∃ s, x = Val.str s) ∧
    (∀ v _id, Val.str _id ∈ idxGet idx v ↔
      ∃ doc, assocGet ds _id = some doc ∧ docMatch doc key v = true) := by
  have hkey : ∀ {c1 : Collection}, c1._update_indeces = .ok c₂ →
      c1.docs = some ds →
      InvOn c.primary_key ds c1.dirty c1.indeces →
      c1.primary_key = c.primary_key →
      c1.file = c.file → c1.requires_flush = c.requires_flush →
      assocGet c₂.indeces key = some idx →
      c₂.primary_key = c.primary_key ∧ c₂.docs = c.docs ∧ c₂.file = c.file ∧
      c₂.requires_flush = c.requires_flush ∧ c₂.dirty = [] ∧
      InvOn c.primary_key ds [] c₂.indeces ∧
      (∀ v x, x ∈ idxGet idx v → ∃ s, x = Val.str s) ∧
      (∀ v _id, Val.str _id ∈ idxGet idx v ↔
        ∃ doc, assocGet ds _id = some doc ∧ docMatch doc key v = true) := by
    intro c1 hupd hds1 hInv1 hpk1 hfile1 hrf1 hget
    rw [← hpk1] at hInv1
    obtain ⟨hu1, hu2, hu3, hu4, hu5, hu6, hu7⟩ := update_indeces_spec hds1 hInv1 hupd
    rw [hpk1] at hu7
    have hin : (key, idx) ∈ c₂.indeces := assocGet_mem hget
    refine ⟨hu1.trans hpk1, (hu2.trans hds1).trans hds.symm, hu3.trans hfile1,
      hu4.trans hrf1, hu5, hu7, ?_, ?_⟩
    · exact hu7.idxStr key idx hin
    · intro v _id
      exact hu7.idxOK key idx hin v _id (by simp)
  rw [Collection.index] at h
  by_cases hpk : key = c.primary_key
  · rw [if_pos hpk] at h
    simp [exBind_err] at h
  · rw [if_neg hpk] at h
    by_cases hnone : (assocGet c.indeces key).isNone = true
    · rw [if_pos hnone, if_pos rfl] at h
      rcases hbf : c.buildIndexFor key with e | c1 <;> rw [hbf] at h
      · simp [exBind_err] at h
      · simp only [exBind_ok] at h
        rcases hupd : c1._update_indeces with e | c2x <;> rw [hupd] at h
        · simp [exBind_err] at h
        · rw [exBind_ok] at h
          obtain ⟨hb1, hb2, hb3, hb4, hb5, hb6⟩ := buildIndexFor_spec hds hInv hbf
          rcases hget : assocGet c2x.indeces key with _ | idx2 <;> rw [hget] at h
          · simp at h
          · have h2 : Except.ok (idx2, c2x) = Except.ok (idx, c₂) := h
            obtain ⟨he1, he2⟩ := Prod.mk.inj (Except.ok.inj h2)
            subst he1
            subst he2
            rw [← hb5] at hb6
            exact hkey hupd (hb2.trans hds) hb6 hb1 hb3 hb4 hget
    · rw [if_neg hnone] at h
      simp only [exPure_eq, exBind_ok] at h
      rcases hupd : c._update_indeces with e | c2x <;> rw [hupd] at h
      · simp [exBind_err] at h
      · simp only [exBind_ok] at h
        rcases hget : assocGet c2x.indeces key with _ | idx2 <;> rw [hget] at h
        · simp at h
        · have h2 : Except.ok (idx2, c2x) = Except.ok (idx, c₂) := h
          obtain ⟨he1, he2⟩ := Prod.mk.inj (Except.ok.inj h2)
          subst he1
          subst he2
          exact hkey hupd hds hInv rfl rfl rfl hget

theorem mem_keysOf_assocSet {α β : Type} [DecidableEq α]
    {l : List (α × β)} {k k' : α} {v : β} :
    k' ∈ keysOf (assocSet l k v) ↔ k' ∈ keysOf l ∨ k' = k := by
  by_cases h : k ∈ keysOf l
  · rw [keysOf_assocSet_of_mem h]
    constructor
    · exact Or.inl
    · rintro (h1 | rfl)
      · exact h1
      · exact h
  · rw [keysOf_assocSet_of_not_mem h]
    simp

/-- Complete characterisation of a successful `__setitem__`: the
document is a mapping; either it lacked the primary-key field and the
field was appended, or it carried exactly `Val.str _id`; the new state
stores it, marks `_id` dirty and requires a flush. -/
theorem setitem_spec {c c' : Collection} {ds : List (String × Val)}
    {_id : String} {doc : Val}
    (hds : c.docs = some ds)
    (h : c.setitem _id doc = .ok c') :
    ∃ fs, doc = .obj fs ∧
      ((assocGet fs c.primary_key = none ∧
        c' = { c with docs := some (assocSet ds _id (.obj (fs ++ [(c.primary_key, .str _id)]))), dirty := addElem c.dirty _id, requires_flush := true }) ∨
       (assocGet fs c.primary_key = some (.str _id) ∧
        c' = { c with docs := some (assocSet ds _id (.obj fs)), dirty := addElem c.dirty _id, requires_flush := true })) := by
  simp only [Collection.setitem, Collection._assert_open, hds, exBind_ok] at h
  rcases doc with _ | b | n | s | xs | fs
  iterate 5 simp at h
  refine ⟨fs, rfl, ?_⟩
  dsimp only at h
  rcases hga : assocGet fs c.primary_key with _ | pv
  · simp only [hga, Option.isNone_none, if_true] at h
    rw [assocGet_append_right hga] at h
    simp only [assocGet, if_pos rfl] at h
    simp at h
    exact Or.inl ⟨rfl, h.symm⟩
  · simp only [hga, Option.isNone_some, Bool.false_eq_true, if_false] at h
    by_cases hpv : pv = Val.str _id
    · subst hpv
      simp at h
      exact Or.inr ⟨rfl, h.symm⟩
    · simp [hpv] at h

theorem InvOn_assocSet {pk : String} {ds : List (String × Val)}
    {dirty : List String} {ind : List (String × Index)}
    {_id : String} {fs' : List (String × Val)}
    (hInv : InvOn pk ds dirty ind)
    (hpk : assocGet fs' pk = some (.str _id)) :
    InvOn pk (assocSet ds _id (.obj fs')) (addElem dirty _id) ind := by
  refine ⟨nodup_keysOf_assocSet hInv.nodupKeys, ?_, nodup_addElem hInv.dirtyNodup,
    ?_, hInv.idxKeysNodup, hInv.idxBucketsNodup, hInv.idxStr, ?_⟩
  · intro j doc hget
    by_cases hj : j = _id
    · subst hj
      rw [assocGet_assocSet_self] at hget
      exact ⟨fs', (Option.some.inj hget).symm, hpk⟩
    · rw [assocGet_assocSet_ne hj] at hget
      exact hInv.pkField j doc hget
  · intro j hj
    rcases mem_addElem.mp hj with hj1 | rfl
    · exact mem_keysOf_assocSet.mpr (Or.inl (hInv.dirtySub j hj1))
    · exact mem_keysOf_assocSet.mpr (Or.inr rfl)
  · intro key idx hin v j hj
    have hj2 : j ∉ dirty ∧ j ≠ _id := by
      constructor
      · intro hc
        exact hj (mem_addElem.mpr (Or.inl hc))
      · intro hc
        exact hj (mem_addElem.mpr (Or.inr hc))
    rw [hInv.idxOK key idx hin v j hj2.1]
    constructor
    · rintro ⟨doc, hget, hm⟩
      exact ⟨doc, by rw [assocGet_assocSet_ne hj2.2]; exact hget, hm⟩
    · rintro ⟨doc, hget, hm⟩
      rw [assocGet_assocSet_ne hj2.2] at hget
      exact ⟨doc, hget, hm⟩

theorem setitem_inv {c c' : Collection} {ds : List (String × Val)}
    {_id : String} {doc : Val}
    (hds : c.docs = some ds)
    (hInv : InvOn c.primary_key ds c.dirty c.indeces)
    (h : c.setitem _id doc = .ok c') :
    ∃ ds', c'.docs = some ds' ∧ c'.primary_key = c.primary_key ∧
      c'.file = c.file ∧ c'.indeces = c.indeces ∧ c'.requires_flush = true ∧
      InvOn c.primary_key ds' c'.dirty c'.indeces := by
  rcases setitem_spec hds h with ⟨fs, rfl, ⟨hga, rfl⟩ | ⟨hga, rfl⟩⟩
  · refine ⟨_, rfl, rfl, rfl, rfl, rfl, ?_⟩
    refine InvOn_assocSet hInv ?_
    rw [assocGet_append_right hga]
    simp [assocGet]
  · exact ⟨_, rfl, rfl, rfl, rfl, rfl, InvOn_assocSet hInv hga⟩

theorem delitem_spec {c c' : Collection} {ds : List (String × Val)} {_id : String}
    (hds : c.docs = some ds)
    (h : c.delitem _id = .ok c') :
    _id ∈ keysOf ds ∧
    c' = { c with docs := some (assocRemove ds _id), indeces := _remove_from_indeces c.indeces _id, dirty := c.dirty.erase _id, requires_flush := true } := by
  simp only [Collection.delitem, Collection._assert_open, hds, exBind_ok] at h
  by_cases hmem : _id ∈ keysOf ds
  · rw [if_pos hmem] at h
    exact ⟨hmem, (Except.ok.inj h).symm⟩
  · rw [if_neg hmem] at h
    simp at h

theorem InvOn_delitem {pk : String} {ds : List (String × Val)}
    {dirty : List String} {ind : List (String × Index)} {_id : String}
    (hInv : InvOn pk ds dirty ind) :
    InvOn pk (assocRemove ds _id) (dirty.erase _id)
      (_remove_from_indeces ind _id) := by
  have entry : ∀ key idx, (key, idx) ∈ _remove_from_indeces ind _id →
      ∃ i0, (key, i0) ∈ ind ∧ idx = removeIdFromIndex i0 _id := by
    intro key idx hin
    rcases List.mem_map.mp hin with ⟨ki, hki, hform⟩
    obtain ⟨h1, h2⟩ := Prod.mk.inj hform
    refine ⟨ki.2, ?_, h2.symm⟩
    rw [← h1]
    exact (show (ki.1, ki.2) ∈ ind by simpa using hki)
  refine ⟨nodup_keysOf_assocRemove hInv.nodupKeys, ?_,
    hInv.dirtyNodup.erase _id, ?_, ?_, ?_, ?_, ?_⟩
  · intro j doc hget
    by_cases hj : j = _id
    · subst hj
      rw [assocGet_assocRemove_self hInv.nodupKeys] at hget
      exact absurd hget (by simp)
    · rw [assocGet_assocRemove_ne hj] at hget
      exact hInv.pkField j doc hget
  · intro j hj
    have hj1 := (hInv.dirtyNodup.mem_erase_iff).mp hj
    exact (mem_keysOf_assocRemove hInv.nodupKeys).mpr
      ⟨hInv.dirtySub j hj1.2, hj1.1⟩
  · intro key idx hin
    rcases entry key idx hin with ⟨i0, hin0, rfl⟩
    exact nodup_keysOf_removeIdFromIndex (hInv.idxKeysNodup key i0 hin0)
  · intro key idx hin v
    rcases entry key idx hin with ⟨i0, hin0, rfl⟩
    exact nodup_idxGet_removeIdFromIndex (hInv.idxKeysNodup key i0 hin0)
      (hInv.idxBucketsNodup key i0 hin0)
  · intro key idx hin v x hx
    rcases entry key idx hin with ⟨i0, hin0, rfl⟩
    rw [idxGet_removeIdFromIndex (hInv.idxKeysNodup key i0 hin0)] at hx
    exact hInv.idxStr key i0 hin0 v x (List.mem_of_mem_erase hx)
  · intro key idx hin v j hj
    rcases entry key idx hin with ⟨i0, hin0, rfl⟩
    rw [idxGet_removeIdFromIndex (hInv.idxKeysNodup key i0 hin0)]
    by_cases hjid : j = _id
    · subst hjid
      constructor
      · intro hx
        have := (List.Nodup.mem_erase_iff
          (hInv.idxBucketsNodup key i0 hin0 v)).mp hx
        exact absurd rfl this.1
      · rintro ⟨doc, hget, _⟩
        rw [assocGet_assocRemove_self hInv.nodupKeys] at hget
        exact absurd hget (by simp)
    · have hjd : j ∉ dirty := by
        intro hc
        exact hj (hInv.dirtyNodup.mem_erase_iff.mpr ⟨hjid, hc⟩)
      rw [List.Nodup.mem_erase_iff (hInv.idxBucketsNodup key i0 hin0 v)]
      rw [hInv.idxOK key i0 hin0 v j hjd]
      constructor
      · rintro ⟨hne, doc, hget, hm⟩
        refine ⟨doc, ?_, hm⟩
        rw [assocGet_assocRemove_ne hjid]
        exact hget
      · rintro ⟨doc, hget, hm⟩
        rw [assocGet_assocRemove_ne hjid] at hget
        refine ⟨?_, doc, hget, hm⟩
        intro hc
        exact hjid (Val.str.inj hc)

theorem insert_one_factor {c c' : Collection} {ds : List (String × Val)}
    {fresh rid : String} {doc : Val}
    (hds : c.docs = some ds)
    (h : c.insert_one fresh doc = .ok (rid, c')) :
    ∃ fs', c.setitem rid (.obj fs') = .ok c' := by
  simp only [Collection.insert_one, Collection._assert_open, hds, exBind_ok] at h
  rcases doc with _ | b | n | s | xs | fs
  iterate 5 simp at h
  dsimp only at h
  rcases hga : assocGet fs c.primary_key with _ | pv
  · simp only [hga, Option.isNone_none, if_true] at h
    rw [assocGet_append_right hga] at h
    simp only [assocGet, if_pos rfl, if_true, ite_true] at h
    rcases hset : c.setitem fresh (.obj (fs ++ [(c.primary_key, .str fresh)]))
      with e | c2 <;> rw [hset] at h
    · simp [exBind_err] at h
    · rw [exBind_ok, exPure_eq] at h
      obtain ⟨h1, h2⟩ := Prod.mk.inj (Except.ok.inj h)
      subst h1
      subst h2
      exact ⟨_, hset⟩
  · simp only [hga, Option.isNone_some, Bool.false_eq_true, if_false] at h
    rcases pv with _ | b | n | s | xs | fs2
    iterate 3 simp at h
    · dsimp only at h
      rcases hset : c.setitem s (.obj fs) with e | c2 <;> rw [hset] at h
      · simp [exBind_err] at h
      · rw [exBind_ok, exPure_eq] at h
        obtain ⟨h1, h2⟩ := Prod.mk.inj (Except.ok.inj h)
        subst h1
        subst h2
        exact ⟨_, hset⟩
    · simp at h
    · simp at h

theorem updateOne_factor {c c' : Collection} {ds : List (String × Val)}
    {fd : String × Val}
    (hds : c.docs = some ds)
    (h : c.updateOne fd = .ok c') :
    ∃ _id fs', c.setitem _id (.obj fs') = .ok c' := by
  obtain ⟨fresh, doc⟩ := fd
  simp only [Collection.updateOne, Collection._assert_open, hds, exBind_ok] at h
  rcases doc with _ | b | n | s | xs | fs
  iterate 5 simp at h
  dsimp only at h
  rcases hga : assocGet fs c.primary_key with _ | pv
  · simp only [hga, Option.isNone_none, if_true] at h
    rw [assocGet_append_right hga] at h
    simp only [assocGet, if_pos rfl, if_true, ite_true] at h
    exact ⟨_, _, h⟩
  · simp only [hga, Option.isNone_some, Bool.false_eq_true, if_false] at h
    rcases pv with _ | b | n | s | xs | fs2
    iterate 3 simp at h
    · dsimp only at h
      exact ⟨_, _, h⟩
    · simp at h
    · simp at h

theorem setitem_Inv {c c' : Collection} {_id : String} {doc : Val}
    (hInv : Inv c) (h : c.setitem _id doc = .ok c') :
    Inv c' ∧ c'.primary_key = c.primary_key := by
  rcases hInv with ⟨ds, hds, hI⟩
  rcases setitem_inv hds hI h with ⟨ds', h1, h2, _, h4, _, h6⟩
  refine ⟨⟨ds', h1, ?_⟩, h2⟩
  rw [h2]
  exact h6

theorem delitem_Inv {c c' : Collection} {_id : String}
    (hInv : Inv c) (h : c.delitem _id = .ok c') :
    Inv c' ∧ c'.primary_key = c.primary_key := by
  rcases hInv with ⟨ds, hds, hI⟩
  rcases delitem_spec hds h with ⟨hmem, rfl⟩
  exact ⟨⟨assocRemove ds _id, rfl, InvOn_delitem hI⟩, rfl⟩

theorem clear_Inv {c c' : Collection}
    (hInv : Inv c) (h : c.clear = .ok c') :
    Inv c' ∧ c'.primary_key = c.primary_key := by
  rcases hInv with ⟨ds, hds, hI⟩
  rw [Collection.clear, hds] at h
  have h2 : Except.ok ({ c with docs := some [], indeces := [], dirty := [], requires_flush := true }) = Except.ok c' := h
  rw [← Except.ok.inj h2]
  refine ⟨⟨[], rfl, ?_⟩, rfl⟩
  refine ⟨List.nodup_nil, ?_, List.nodup_nil, ?_, ?_, ?_, ?_, ?_⟩
  · intro j doc hget
    simp [assocGet] at hget
  · intro j hj
    simp at hj
  · intro key idx hin
    simp at hin
  · intro key idx hin
    simp at hin
  · intro key idx hin
    simp at hin
  · intro key idx hin
    simp at hin

theorem insert_one_Inv {c c' : Collection} {fresh rid : String} {doc : Val}
    (hInv : Inv c) (h : c.insert_one fresh doc = .ok (rid, c')) :
    Inv c' ∧ c'.primary_key = c.primary_key := by
  rcases hInv with ⟨ds, hds, hI⟩
  rcases insert_one_factor hds h with ⟨fs', hset⟩
  exact setitem_Inv ⟨ds, hds, hI⟩ hset

theorem updateOne_Inv {c c' : Collection} {fd : String × Val}
    (hInv : Inv c) (h : c.updateOne fd = .ok c') :
    Inv c' ∧ c'.primary_key = c.primary_key := by
  rcases hInv with ⟨ds, hds, hI⟩
  rcases updateOne_factor hds h with ⟨_id, fs', hset⟩
  exact setitem_Inv ⟨ds, hds, hI⟩ hset

theorem updateMany_Inv {docs : List (String × Val)} :
    ∀ {c c' : Collection}, Inv c → c.updateMany docs = .ok c' →
    Inv c' ∧ c'.primary_key = c.primary_key := by
  induction docs with
  | nil =>
      intro c c' hInv h
      rw [Collection.updateMany, List.foldlM_nil] at h
      have h2 : Except.ok c = Except.ok c' := h
      rw [← Except.ok.inj h2]
      exact ⟨hInv, rfl⟩
  | cons fd rest ih =>
      intro c c' hInv h
      rw [Collection.updateMany, List.foldlM_cons] at h
      rcases hstep : c.updateOne fd with e | c1 <;> rw [hstep] at h
      · simp [exBind_err] at h
      · rw [exBind_ok] at h
        obtain ⟨hI1, hpk1⟩ := updateOne_Inv hInv hstep
        obtain ⟨hI2, hpk2⟩ := ih hI1 h
        exact ⟨hI2, hpk2.trans hpk1⟩

theorem touch_Inv {c : Collection} {key : String} {idx : Index} {c₂ : Collection}
    (hInv : Inv c) (h : c.index key true = .ok (idx, c₂)) :
    Inv c₂ ∧ c₂.primary_key = c.primary_key := by
  rcases hInv with ⟨ds, hds, hI⟩
  obtain ⟨h1, h2, _, _, h5, h6, _, _⟩ := index_spec hds hI h
  refine ⟨⟨ds, h2.trans hds, ?_⟩, h1⟩
  rw [h1, h5]
  exact h6

theorem applyOp_Inv {c c' : Collection} {op : Op}
    (hInv : Inv c) (h : applyOp c op = .ok c') :
    Inv c' ∧ c'.primary_key = c.primary_key := by
  rcases op with ⟨_id, doc⟩ | ⟨_id⟩ | ⟨fresh, doc⟩ | ⟨docs⟩ | ⟨key⟩
  · exact setitem_Inv hInv h
  · exact delitem_Inv hInv h
  · rw [applyOp] at h
    rcases hins : c.insert_one fresh doc with e | rc <;> rw [hins] at h
    · simp [exBind_err] at h
    · rw [exBind_ok, exPure_eq] at h
      obtain ⟨rid, c1⟩ := rc
      rw [← Except.ok.inj h]
      exact insert_one_Inv hInv hins
  · exact updateMany_Inv hInv h
  · rw [applyOp] at h
    rcases hidx : c.index key true with e | ic <;> rw [hidx] at h
    · simp [exBind_err] at h
    · rw [exBind_ok, exPure_eq] at h
      obtain ⟨idx, c1⟩ := ic
      rw [← Except.ok.inj h]
      exact touch_Inv hInv hidx

theorem runOps_Inv {ops : List Op} :
    ∀ {c c' : Collection}, Inv c → runOps c ops = .ok c' →
    Inv c' ∧ c'.primary_key = c.primary_key := by
  induction ops with
  | nil =>
      intro c c' hInv h
      rw [runOps, List.foldlM_nil] at h
      have h2 : Except.ok c = Except.ok c' := h
      rw [← Except.ok.inj h2]
      exact ⟨hInv, rfl⟩
  | cons op rest ih =>
      intro c c' hInv h
      rw [runOps, List.foldlM_cons] at h
      rcases hstep : applyOp c op with e | c1 <;> rw [hstep] at h
      · simp [exBind_err] at h
      · rw [exBind_ok] at h
        obtain ⟨hI1, hpk1⟩ := applyOp_Inv hInv hstep
        obtain ⟨hI2, hpk2⟩ := ih hI1 h
        exact ⟨hI2, hpk2.trans hpk1⟩

theorem mem_matchIds {ds : List (String × Val)} {key : String} {v x : Val}
    (nd : (keysOf ds).Nodup) :
    x ∈ matchIds ds key v ↔
      ∃ _id doc, x = Val.str _id ∧ assocGet ds _id = some doc ∧
        docMatch doc key v = true := by
  rw [matchIds]
  constructor
  · intro h
    rcases List.mem_map.mp h with ⟨p, hp, hform⟩
    have hfil := List.mem_filter.mp hp
    refine ⟨p.1, p.2, hform.symm, mem_assocGet nd ?_, by simpa using hfil.2⟩
    exact (show (p.1, p.2) ∈ ds by simpa using hfil.1)
  · rintro ⟨_id, doc, rfl, hget, hm⟩
    refine List.mem_map.mpr ⟨(_id, doc), List.mem_filter.mpr ⟨assocGet_mem hget, by simpa using hm⟩, rfl⟩

theorem idxGet_eq_matchIds {ds : List (String × Val)} {key : String}
    {idx : Index} {value x : Val}
    (nd : (keysOf ds).Nodup)
    (hstr : ∀ v x, x ∈ idxGet idx v → ∃ s, x = Val.str s)
    (hexact : ∀ v _id, Val.str _id ∈ idxGet idx v ↔
      ∃ doc, assocGet ds _id = some doc ∧ docMatch doc key v = true) :
    x ∈ idxGet idx value ↔ x ∈ matchIds ds key value := by
  rw [mem_matchIds nd]
  constructor
  · intro hx
    rcases hstr value x hx with ⟨s, rfl⟩
    rcases (hexact value s).mp hx with ⟨doc, hget, hm⟩
    exact ⟨s, doc, rfl, hget, hm⟩
  · rintro ⟨_id, doc, rfl, hget, hm⟩
    exact (hexact value _id).mpr ⟨doc, hget, hm⟩

/-- The scan loop of `_find` with no limit: under the invariant, a
successful run leaves the table untouched, keeps the invariant, and
returns exactly the values that lie in the seed (when there is one) and
in every term's exact match set. -/
theorem findLoop_char {pairs : List (String × Val)} :
    ∀ {c c' : Collection} {ds : List (String × Val)}
      {r0? : Option (List Val)} {S : List Val},
    c.docs = some ds →
    InvOn c.primary_key ds c.dirty c.indeces →
    Collection.findLoop c 0 pairs r0? = .ok (S, c') →
    c'.docs = some ds ∧ c'.primary_key = c.primary_key ∧
    InvOn c'.primary_key ds c'.dirty c'.indeces ∧
    ∀ x, x ∈ S ↔
      ((match r0? with
        | some r0 => x ∈ r0
        | none => pairs ≠ []) ∧
       ∀ kv ∈ pairs, x ∈ matchIds ds kv.1 kv.2) := by
  induction pairs with
  | nil =>
      intro c c' ds r0? S hds hInv h
      rcases r0? with _ | r0
      · simp [Collection.findLoop] at h
      · simp only [Collection.findLoop, listTruncate, if_pos rfl] at h
        have h2 : Except.ok (r0, c) = Except.ok (S, c') := h
        obtain ⟨he1, he2⟩ := Prod.mk.inj (Except.ok.inj h2)
        subst he1
        subst he2
        exact ⟨hds, rfl, hInv, by simp⟩
  | cons kv rest ih =>
      intro c c' ds r0? S hds hInv h
      obtain ⟨key, value⟩ := kv
      rw [Collection.findLoop] at h
      rcases hidx : c.index key true with e | ic <;> rw [hidx] at h
      · simp [exBind_err] at h
      · obtain ⟨idx, c2⟩ := ic
        rw [exBind_ok] at h
        dsimp only at h
        obtain ⟨hq1, hq2, _, _, hq5, hq6, hq7, hq8⟩ := index_spec hds hInv hidx
        have hmi : ∀ x, x ∈ idxGet idx value ↔ x ∈ matchIds ds key value :=
          fun x => idxGet_eq_matchIds hInv.nodupKeys hq7 hq8
        have hInv2 : InvOn c2.primary_key ds c2.dirty c2.indeces := by
          rw [hq1, hq5]
          exact hq6
        have hds2 : c2.docs = some ds := hq2.trans hds
        have tail : ∀ (r : List Val) (P : Val → Prop),
            (∀ x, x ∈ r ↔ P x ∧ x ∈ matchIds ds key value) →
            (if r = [] then Except.ok (listTruncate r 0, c2)
             else if (0 : Nat) ≠ 0 ∧ 0 ≤ r.length then
               Except.ok (listTruncate r 0, c2)
             else c2.findLoop 0 rest (some r)) = Except.ok (S, c') →
            c'.docs = some ds ∧ c'.primary_key = c.primary_key ∧
            InvOn c'.primary_key ds c'.dirty c'.indeces ∧
            ∀ x, x ∈ S ↔
              P x ∧ ∀ kv ∈ (key, value) :: rest, x ∈ matchIds ds kv.1 kv.2 := by
          intro r P hseed hh
          by_cases hre : r = []
          · rw [if_pos hre] at hh
            simp only [listTruncate, if_pos rfl] at hh
            have h2 : Except.ok (r, c2) = Except.ok (S, c') := hh
            obtain ⟨he1, he2⟩ := Prod.mk.inj (Except.ok.inj h2)
            subst he1
            subst he2
            refine ⟨hds2, hq1, hInv2, ?_⟩
            intro x
            rw [hre]
            simp only [List.not_mem_nil, false_iff]
            rintro ⟨hx0, hall⟩
            have hx1 : x ∈ matchIds ds key value :=
              hall (key, value) (List.mem_cons_self _ _)
            have hx2 : x ∈ r := (hseed x).mpr ⟨hx0, hx1⟩
            rw [hre] at hx2
            simp at hx2
          · rw [if_neg hre] at hh
            have hlim : ¬ ((0 : Nat) ≠ 0 ∧ 0 ≤ r.length) := by simp
            rw [if_neg hlim] at hh
            obtain ⟨hc1, hc2, hc3, hc4⟩ := ih hds2 hInv2 hh
            refine ⟨hc1, hc2.trans hq1, hc3, ?_⟩
            intro x
            rw [hc4 x]
            constructor
            · rintro ⟨hxr, hall⟩
              obtain ⟨hP, hm⟩ := (hseed x).mp hxr
              refine ⟨hP, ?_⟩
              intro kv2 hkv2
              rcases List.mem_cons.mp hkv2 with rfl | hkv3
              · exact hm
              · exact hall kv2 hkv3
            · rintro ⟨hP, hall⟩
              refine ⟨(hseed x).mpr
                ⟨hP, hall (key, value) (List.mem_cons_self _ _)⟩, ?_⟩
              intro kv2 hkv2
              exact hall kv2 (List.mem_cons.mpr (Or.inr hkv2))
        rcases r0? with _ | r0
        · obtain ⟨hc1, hc2, hc3, hc4⟩ :=
            tail (idxGet idx value) (fun _ => True)
              (fun x => by simpa using hmi x) h
          refine ⟨hc1, hc2, hc3, ?_⟩
          intro x
          rw [hc4 x]
          simp
        · obtain ⟨hc1, hc2, hc3, hc4⟩ :=
            tail (r0.filter (· ∈ idxGet idx value)) (fun x => x ∈ r0)
              (fun x => by
                simp only [List.mem_filter, decide_eq_true_eq]
                rw [← hmi x]) h
          refine ⟨hc1, hc2, hc3, ?_⟩
          intro x
          rw [hc4 x]

theorem update_indeces_frame {c c' : Collection}
    (h : c._update_indeces = .ok c') :
    c'.docs = c.docs ∧ c'.primary_key = c.primary_key ∧ c'.file = c.file ∧
    c'.requires_flush = c.requires_flush := by
  rw [Collection._update_indeces] at h
  by_cases hd : c.dirty = []
  · rw [if_pos hd] at h
    have h2 : Except.ok c = Except.ok c' := h
    rw [← Except.ok.inj h2]
    exact ⟨rfl, rfl, rfl, rfl⟩
  · rw [if_neg hd] at h
    rcases h1 : c.dirty.mapM c.getitem with e | docsL <;> rw [h1] at h
    · simp [exBind_err] at h
    · rw [exBind_ok] at h
      rcases h2 : (c.dirty.foldl _remove_from_indeces c.indeces).mapM
          (fun ki => do
            let tmp ← _build_index docsL ki.1 c.primary_key
            pure (ki.1, idxMerge ki.2 tmp)) with e | ind2 <;> rw [h2] at h
      · simp [exBind_err] at h
      · rw [exBind_ok] at h
        have h3 : Except.ok ({ c with indeces := ind2, dirty := [] }) = Except.ok c' := h
        rw [← Except.ok.inj h3]
        exact ⟨rfl, rfl, rfl, rfl⟩

theorem buildIndexFor_frame {c c' : Collection} {key : String}
    (h : c.buildIndexFor key = .ok c') :
    c'.docs = c.docs ∧ c'.primary_key = c.primary_key ∧ c'.file = c.file ∧
    c'.requires_flush = c.requires_flush := by
  rw [Collection.buildIndexFor] at h
  rcases hds : c.docs with _ | ds <;> rw [hds] at h
  · simp at h
  · dsimp only at h
    rcases hb : _build_index (ds.map Prod.snd) key c.primary_key with e | idx <;>
      rw [hb] at h
    · simp [exBind_err] at h
    · rw [exBind_ok] at h
      have h2 : Except.ok ({ c with indeces := assocSet c.indeces key idx, docs := some ds }) = Except.ok c' := h
      rw [← Except.ok.inj h2]
      exact ⟨rfl, rfl, rfl, rfl⟩

theorem index_frame {c c₂ : Collection} {key : String} {build : Bool}
    {idx : Index}
    (h : c.index key build = .ok (idx, c₂)) :
    c₂.docs = c.docs ∧ c₂.primary_key = c.primary_key ∧ c₂.file = c.file ∧
    c₂.requires_flush = c.requires_flush := by
  rw [Collection.index] at h
  by_cases hpk : key = c.primary_key
  · rw [if_pos hpk] at h
    simp [exBind_err] at h
  · rw [if_neg hpk] at h
    have main : ∀ {c1 : Collection},
        c1.docs = c.docs → c1.primary_key = c.primary_key →
        c1.file = c.file → c1.requires_flush = c.requires_flush →
        (do
          let c2 ← c1._update_indeces
          match assocGet c2.indeces key with
          | some idx => Except.ok (idx, c2)
          | none => Except.error Err.keyError) = .ok (idx, c₂) →
        c₂.docs = c.docs ∧ c₂.primary_key = c.primary_key ∧ c₂.file = c.file ∧
        c₂.requires_flush = c.requires_flush := by
      intro c1 e1 e2 e3 e4 hh
      rcases hupd : c1._update_indeces with e | c2x <;> rw [hupd] at hh
      · simp [exBind_err] at hh
      · rw [exBind_ok] at hh
        obtain ⟨f1, f2, f3, f4⟩ := update_indeces_frame hupd
        rcases hget : assocGet c2x.indeces key with _ | idx2 <;> rw [hget] at hh
        · simp at hh
        · have h2 : Except.ok (idx2, c2x) = Except.ok (idx, c₂) := hh
          obtain ⟨he1, he2⟩ := Prod.mk.inj (Except.ok.inj h2)
          subst he1
          subst he2
          exact ⟨f1.trans e1, f2.trans e2, f3.trans e3, f4.trans e4⟩
    by_cases hnone : (assocGet c.indeces key).isNone = true
    · rw [if_pos hnone] at h
      rcases build with _ | _
      · rw [if_neg (by simp)] at h
        simp [exBind_err] at h
      · rw [if_pos rfl] at h
        rcases hbf : c.buildIndexFor key with e | c1 <;> rw [hbf] at h
        · simp [exBind_err] at h
        · simp only [exBind_ok] at h
          obtain ⟨g1, g2, g3, g4⟩ := buildIndexFor_frame hbf
          exact main g1 g2 g3 g4 h
    · rw [if_neg hnone] at h
      simp only [exPure_eq, exBind_ok] at h
      exact main rfl rfl rfl rfl h

theorem findLoop_frame {pairs : List (String × Val)} :
    ∀ {c c' : Collection} {limit : Nat} {r0? : Option (List Val)} {S : List Val},
    Collection.findLoop c limit pairs r0? = .ok (S, c') →
    c'.docs = c.docs ∧ c'.primary_key = c.primary_key ∧ c'.file = c.file ∧
    c'.requires_flush = c.requires_flush := by
  induction pairs with
  | nil =>
      intro c c' limit r0? S h
      rcases r0? with _ | r0
      · simp [Collection.findLoop] at h
      · simp only [Collection.findLoop] at h
        have h2 : Except.ok (listTruncate r0 limit, c) = Except.ok (S, c') := h
        obtain ⟨he1, he2⟩ := Prod.mk.inj (Except.ok.inj h2)
        subst he2
        exact ⟨rfl, rfl, rfl, rfl⟩
  | cons kv rest ih =>
      intro c c' limit r0? S h
      obtain ⟨key, value⟩ := kv
      rw [Collection.findLoop] at h
      rcases hidx : c.index key true with e | ic <;> rw [hidx] at h
      · simp [exBind_err] at h
      · obtain ⟨idx, c2⟩ := ic
        rw [exBind_ok] at h
        dsimp only at h
        obtain ⟨f1, f2, f3, f4⟩ := index_frame hidx
        have hfin : ∀ {r : List Val},
            (if r = [] then Except.ok (listTruncate r limit, c2)
             else if limit ≠ 0 ∧ limit ≤ r.length then
               Except.ok (listTruncate r limit, c2)
             else c2.findLoop limit rest (some r)) = Except.ok (S, c') →
            c'.docs = c.docs ∧ c'.primary_key = c.primary_key ∧
            c'.file = c.file ∧ c'.requires_flush = c.requires_flush := by
          intro r hh
          by_cases hre : r = []
          · rw [if_pos hre] at hh
            have h2 : Except.ok (listTruncate r limit, c2) = Except.ok (S, c') := hh
            obtain ⟨he1, he2⟩ := Prod.mk.inj (Except.ok.inj h2)
            subst he2
            exact ⟨f1, f2, f3, f4⟩
          · rw [if_neg hre] at hh
            by_cases hlim : limit ≠ 0 ∧ limit ≤ r.length
            · rw [if_pos hlim] at hh
              have h2 : Except.ok (listTruncate r limit, c2) = Except.ok (S, c') := hh
              obtain ⟨he1, he2⟩ := Prod.mk.inj (Except.ok.inj h2)
              subst he2
              exact ⟨f1, f2, f3, f4⟩
            · rw [if_neg hlim] at hh
              obtain ⟨g1, g2, g3, g4⟩ := ih hh
              exact ⟨g1.trans f1, g2.trans f2, g3.trans f3, g4.trans f4⟩
        rcases r0? with _ | r0
        · exact hfin h
        · exact hfin h

theorem find_frame {c c' : Collection} {filter? : Option Val} {limit : Nat}
    {S : List Val}
    (h : c._find filter? limit = .ok (S, c')) :
    c'.docs = c.docs ∧ c'.primary_key = c.primary_key ∧ c'.file = c.file ∧
    c'.requires_flush = c.requires_flush := by
  rw [Collection._find] at h
  rcases hds : c.docs with _ | ds <;> rw [hds] at h
  · simp [Collection._assert_open, hds, exBind_err] at h
  · simp only [Collection._assert_open, hds, exBind_ok] at h
    have hsame : ∀ {T : List Val},
        (Except.ok (T, c) : Except Err (List Val × Collection)) = .ok (S, c') →
        c'.docs = some ds ∧ c'.primary_key = c.primary_key ∧ c'.file = c.file ∧
        c'.requires_flush = c.requires_flush := by
      intro T hh
      obtain ⟨he1, he2⟩ := Prod.mk.inj (Except.ok.inj hh)
      subst he2
      exact ⟨hds, rfl, rfl, rfl⟩
    rcases filter? with _ | f
    · simp only [_check_filter, exBind_ok] at h
      exact hsame h
    · rcases hval : _valid_filter f true with _ | _
      · rw [_check_filter] at h
        rw [hval] at h
        simp [exBind_err] at h
      · rw [_check_filter] at h
        rw [hval] at h
        simp only [if_true, ite_true, exBind_ok] at h
        split at h
        all_goals first
          | exact hsame h
          | simp [exBind_err] at h
          | (obtain ⟨g1, g2, g3, g4⟩ := findLoop_frame h
             exact ⟨g1.trans hds, g2, g3, g4⟩)

/-- `_find` with no limit, on a nonempty mapping filter that does not
constrain the primary key: the result is exactly the set of values
lying in the exact match set of every `(path, value)` pair of the
flattened filter. -/
theorem find_char {c c' : Collection} {ds fs : List (String × Val)} {S : List Val}
    (hds : c.docs = some ds)
    (hInv : InvOn c.primary_key ds c.dirty c.indeces)
    (hne : fs ≠ [])
    (hpk : assocGet fs c.primary_key = none)
    (h : c._find (some (.obj fs)) 0 = .ok (S, c')) :
    c'.docs = some ds ∧ c'.primary_key = c.primary_key ∧
    InvOn c'.primary_key ds c'.dirty c'.indeces ∧
    traverse_filter (.obj fs) ≠ [] ∧
    (∀ x, x ∈ S ↔ ∀ kv ∈ traverse_filter (.obj fs), x ∈ matchIds ds kv.1 kv.2) := by
  rw [Collection._find] at h
  rw [hds] at h
  simp only [Collection._assert_open, hds, exBind_ok] at h
  rcases hval : _valid_filter (.obj fs) true with _ | _
  · rw [_check_filter, hval] at h
    simp [exBind_err] at h
  · rw [_check_filter, hval] at h
    simp only [if_true, ite_true, exBind_ok] at h
    rcases fs with _ | ⟨kv0, fsr⟩
    · exact absurd rfl hne
    · rw [hpk] at h
      have hnk : c.primary_key ∉ keysOf (kv0 :: fsr) := assocGet_eq_none.mp hpk
      rw [assocRemove_of_not_mem hnk] at h
      have hpairs : traverse_filter (.obj (kv0 :: fsr)) ≠ [] := by
        intro hempty
        rw [hempty] at h
        simp [Collection.findLoop] at h
      obtain ⟨hc1, hc2, hc3, hc4⟩ := findLoop_char hds hInv h
      refine ⟨hc1, hc2, hc3, hpairs, ?_⟩
      intro x
      rw [hc4 x]
      simp only [hpairs, ne_eq, not_false_eq_true, true_and]

/-! ## Filter validity: classification -/

mutual

/-- Below the top level every value is a valid filter component: the
`top=False` recursion of `_valid_filter` accepts sequences. -/
theorem valid_filter_false : ∀ (v : Val), _valid_filter v false = true
  | .null => rfl
  | .bool _ => rfl
  | .num _ => rfl
  | .str _ => rfl
  | .arr _ => rfl
  | .obj fs => valid_filterFields_true fs

theorem valid_filterFields_true :
    ∀ (fs : List (String × Val)), _valid_filterFields fs = true
  | [] => rfl
  | kv :: rest => by
      rw [_valid_filterFields]
      rw [valid_filter_false kv.2, valid_filterFields_true rest]
      rfl

end

/-- Every mapping is a valid top-level filter, whatever its values —
sequences included: the mapping case recurses with `top=False`. -/
theorem valid_filter_obj {fs : List (String × Val)} :
    _valid_filter (.obj fs) true = true :=
  valid_filterFields_true fs

/-- Filter validation fails exactly on a filter that IS a sequence. -/
theorem valid_filter_top_iff {f : Val} :
    _valid_filter f true = false ↔ ∃ xs, f = .arr xs := by
  constructor
  · intro h
    rcases f with _ | b | n | s | xs | fs
    iterate 4 exact absurd h (by simp [_valid_filter])
    · exact ⟨xs, rfl⟩
    · rw [valid_filter_obj] at h
      exact absurd h (by simp)
  · rintro ⟨xs, rfl⟩
    rfl

/-! ## Error classification: which exceptions each helper can raise -/

/-- A failing fold pinpoints a failing step. -/
theorem foldlM_ex_err {α β : Type} {step : β → α → Except Err β} :
    ∀ {l : List α} {b : β} {e : Err}, l.foldlM step b = .error e →
      ∃ b' a, step b' a = .error e := by
  intro l
  induction l with
  | nil =>
      intro b e h
      rw [List.foldlM_nil, exPure_eq] at h
      exact Except.noConfusion h
  | cons a t ih =>
      intro b e h
      rw [List.foldlM_cons] at h
      rcases hstep : step b a with e' | b1 <;> rw [hstep] at h
      · have he : e' = e := by simpa [exBind_err] using h
        exact ⟨b, a, by rw [hstep, he]⟩
      · rw [exBind_ok] at h
        exact ih h

/-- A failing `mapM` pinpoints a failing element. -/
theorem mapM_ex_err {α β : Type} {f : α → Except Err β} :
    ∀ {l : List α} {e : Err}, l.mapM f = .error e → ∃ a, f a = .error e := by
  intro l
  induction l with
  | nil =>
      intro e h
      rw [List.mapM_nil, exPure_eq] at h
      exact Except.noConfusion h
  | cons a t ih =>
      intro e h
      rw [List.mapM_cons] at h
      rcases hf : f a with e' | b <;> rw [hf] at h
      · have he : e' = e := by simpa [exBind_err] using h
        exact ⟨a, by rw [hf, he]⟩
      · rw [exBind_ok] at h
        rcases hm : t.mapM f with e' | bs <;> rw [hm] at h
        · have he : e' = e := by simpa [exBind_err] using h
          exact ih (by rw [hm, he])
        · simp [exBind_ok, exPure_eq] at h

/-- `_get_value` raises only `KeyError` or `TypeError`. -/
theorem _get_value_err {e : Err} :
    ∀ {nodes : List String} {doc : Val}, _get_value doc nodes = .error e →
      e = Err.keyError ∨ e = Err.typeError := by
  intro nodes
  induction nodes with
  | nil =>
      intro doc h
      simp [_get_value] at h
  | cons n rest ih =>
      intro doc h
      rcases doc with _ | b | nm | s | xs | fs
      iterate 5
        (right
         have hte : (Except.error Err.typeError : Except Err Val) = .error e := h
         exact (Except.error.inj hte).symm)
      · rw [_get_value] at h
        rcases hget : assocGet fs n with _ | v <;> rw [hget] at h
        · left
          exact (Except.error.inj h).symm
        · exact ih h

/-- `docGet` raises only `KeyError` or `TypeError`. -/
theorem docGet_err {doc : Val} {key : String} {e : Err}
    (h : docGet doc key = .error e) : e = Err.keyError ∨ e = Err.typeError := by
  rcases doc with _ | b | n | s | xs | fs
  iterate 5 (right; exact (Except.error.inj h).symm)
  · rw [docGet] at h
    rcases hget : assocGet fs key with _ | v <;> rw [hget] at h
    · left
      exact (Except.error.inj h).symm
    · exact absurd h (by simp)

/-- One `_build_index` step raises only `KeyError` or `TypeError`. -/
theorem build_step_err {key primary_key : String} {nodes : List String}
    {idx : Index} {doc : Val} {e : Err}
    (h : _build_index_step key primary_key nodes idx doc = .error e) :
    e = Err.keyError ∨ e = Err.typeError := by
  simp only [_build_index_step] at h
  have hif : ∀ {idx1 : Index},
      (if nodes.length > 1 then
        (match docGet doc key with
         | .error .keyError => Except.ok idx1
         | .error e => .error e
         | .ok v => do
             let pk ← docGet doc primary_key
             Except.ok (idxAdd idx1 (_encode_tree v) pk)) else
        Except.ok idx1 : Except Err Index) = .error e →
      e = Err.keyError ∨ e = Err.typeError := by
    intro idx1 hh
    by_cases hlen : nodes.length > 1
    · rw [if_pos hlen] at hh
      rcases hlit : docGet doc key with e2 | v0 <;> rw [hlit] at hh
      · rcases e2
        · rcases docGet_err hlit with h' | h' <;> exact absurd h' (by simp)
        · exact Except.noConfusion hh
        · right
          have he : (Except.error Err.typeError : Except Err Index) = .error e := hh
          exact (Except.error.inj he).symm
        · rcases docGet_err hlit with h' | h' <;> exact absurd h' (by simp)
        · rcases docGet_err hlit with h' | h' <;> exact absurd h' (by simp)
      · rcases hpk : docGet doc primary_key with e3 | px <;> rw [hpk] at hh
        · have he : e3 = e := by simpa [exBind_err] using hh
          subst he
          exact docGet_err hpk
        · simp [exBind_ok] at hh
    · rw [if_neg hlen] at hh
      exact Except.noConfusion hh
  rcases hwalk : _get_value doc nodes with e1 | w <;> rw [hwalk] at h
  · rcases e1
    · simp [exBind_err] at h
      subst h
      exact _get_value_err hwalk
    · simp only [exPure_eq, exBind_ok] at h
      exact hif h
    · simp [exBind_err] at h
      subst h
      exact _get_value_err hwalk
    · simp [exBind_err] at h
      subst h
      exact _get_value_err hwalk
    · simp [exBind_err] at h
      subst h
      exact _get_value_err hwalk
  · rcases hpk : docGet doc primary_key with e3 | px <;> rw [hpk] at h
    · have he : e3 = e := by simpa [exBind_err] using h
      subst he
      exact docGet_err hpk
    · simp only [exBind_ok, exPure_eq, exBind_ok] at h
      by_cases hlen : nodes.length > 1
      · rw [if_pos hlen] at h
        rcases hlit : docGet doc key with e2 | v0 <;> rw [hlit] at h
        · rcases e2
          · rcases docGet_err hlit with h' | h' <;> exact absurd h' (by simp)
          · exact Except.noConfusion h
          · right
            have he : (Except.error Err.typeError : Except Err Index) = .error e := h
            exact (Except.error.inj he).symm
          · rcases docGet_err hlit with h' | h' <;> exact absurd h' (by simp)
          · rcases docGet_err hlit with h' | h' <;> exact absurd h' (by simp)
        · exact Except.noConfusion h
      · rw [if_neg hlen] at h
        exact Except.noConfusion h

/-- `_build_index` raises only `KeyError` or `TypeError`. -/
theorem build_index_err {docs : List Val} {key primary_key : String} {e : Err}
    (h : _build_index docs key primary_key = .error e) :
    e = Err.keyError ∨ e = Err.typeError := by
  rw [_build_index] at h
  obtain ⟨idx, doc, hstep⟩ := foldlM_ex_err h
  exact build_step_err hstep

/-- `__getitem__` raises only the collection-closed error or `KeyError`. -/
theorem getitem_err {c : Collection} {_id : String} {e : Err}
    (h : c.getitem _id = .error e) :
    e = Err.runtimeClosed ∨ e = Err.keyError := by
  rw [Collection.getitem] at h
  rcases hds : c.docs with _ | ds <;>
    simp only [Collection._assert_open, hds, exBind_err, exBind_ok] at h
  · left
    exact (Except.error.inj h).symm
  · rcases hget : assocGet ds _id with _ | doc <;> rw [hget] at h
    · right
      exact (Except.error.inj h).symm
    · exact absurd h (by simp)

/-- `_update_indeces` never raises `ValueError`. -/
theorem update_indeces_err {c : Collection} {e : Err}
    (h : c._update_indeces = .error e) : e ≠ Err.valueError := by
  rw [Collection._update_indeces] at h
  by_cases hd : c.dirty = []
  · rw [if_pos hd] at h
    exact absurd h (by simp)
  · rw [if_neg hd] at h
    rcases hm : c.dirty.mapM c.getitem with e1 | docsL <;> rw [hm] at h
    · have he : e1 = e := by simpa [exBind_err] using h
      rw [← he]
      obtain ⟨_id, hg⟩ := mapM_ex_err hm
      rcases getitem_err hg with h' | h' <;> simp [h']
    · rw [exBind_ok] at h
      rcases hm2 : (c.dirty.foldl Collection._remove_from_indeces c.indeces).mapM
          (fun ki => do
            let tmp ← _build_index docsL ki.1 c.primary_key
            pure (ki.1, idxMerge ki.2 tmp)) with e2 | ind2 <;> rw [hm2] at h
      · have he : e2 = e := by simpa [exBind_err] using h
        rw [← he]
        obtain ⟨ki, hki⟩ := mapM_ex_err hm2
        rcases hb : _build_index docsL ki.1 c.primary_key with e3 | tmp <;>
          rw [hb] at hki
        · have he3 : e3 = e2 := by simpa [exBind_err] using hki
          rw [← he3]
          rcases build_index_err hb with h' | h' <;> simp [h']
        · simp [exBind_ok, exPure_eq] at hki
      · rw [exBind_ok] at h
        exact absurd h (by simp)

/-- `Collection._build_index` (the method) never raises `ValueError`. -/
theorem buildIndexFor_err {c : Collection} {key : String} {e : Err}
    (h : c.buildIndexFor key = .error e) : e ≠ Err.valueError := by
  rw [Collection.buildIndexFor] at h
  rcases hds : c.docs with _ | ds <;> rw [hds] at h
  · have hn : (Except.error Err.attributeError : Except Err Collection) = .error e := h
    intro hc
    rw [hc] at hn
    exact Err.noConfusion (Except.error.inj hn)
  · dsimp only at h
    rcases hb : _build_index (ds.map Prod.snd) key c.primary_key with e1 | idx <;>
      rw [hb] at h
    · have he : e1 = e := by simpa [exBind_err] using h
      subst he
      rcases build_index_err hb with h' | h' <;> simp [h']
    · simp [exBind_ok, exPure_eq] at h

/-- `index(key, build)` never raises `ValueError`. -/
theorem index_err {c : Collection} {key : String} {build : Bool} {e : Err}
    (h : c.index key build = .error e) : e ≠ Err.valueError := by
  rw [Collection.index] at h
  by_cases hpk : key = c.primary_key
  · rw [if_pos hpk] at h
    intro hc
    rw [hc] at h
    exact Err.noConfusion (Except.error.inj h)
  · rw [if_neg hpk] at h
    have htail : ∀ {c1 : Collection},
        (do
          let c2 ← c1._update_indeces
          (match assocGet c2.indeces key with
           | some idx => .ok (idx, c2)
           | none => .error .keyError) : Except Err (Index × Collection)) = .error e →
        e ≠ Err.valueError := by
      intro c1 hh
      rcases hu : c1._update_indeces with e1 | c2 <;> rw [hu] at hh
      · have he : e1 = e := by simpa [exBind_err] using hh
        subst he
        exact update_indeces_err hu
      · rw [exBind_ok] at hh
        rcases hget : assocGet c2.indeces key with _ | idx <;> rw [hget] at hh
        · intro hc
          rw [hc] at hh
          exact Err.noConfusion (Except.error.inj hh)
        · exact absurd hh (by simp)
    by_cases hin : (assocGet c.indeces key).isNone
    · rw [if_pos hin] at h
      rcases build
      · simp only [Bool.false_eq_true, if_false] at h
        have he : Err.keyError = e := by simpa [exBind_err] using h
        subst he
        simp
      · simp only [if_true] at h
        rcases hbf : c.buildIndexFor key with e1 | c1 <;> rw [hbf] at h
        · have he : e1 = e := by simpa [exBind_err] using h
          subst he
          exact buildIndexFor_err hbf
        · rw [exBind_ok] at h
          exact htail h
    · rw [if_neg hin] at h
      simp only [exPure_eq, exBind_ok] at h
      exact htail h

/-- The scan loop of `_find` never raises `ValueError`. -/
theorem findLoop_err {pairs : List (String × Val)} :
    ∀ {c : Collection} {limit : Nat} {r0? : Option (List Val)} {e : Err},
    Collection.findLoop c limit pairs r0? = .error e → e ≠ Err.valueError := by
  induction pairs with
  | nil =>
      intro c limit r0? e h
      rcases r0? with _ | r0
      · rw [Collection.findLoop] at h
        intro hc
        rw [hc] at h
        exact Err.noConfusion (Except.error.inj h)
      · rw [Collection.findLoop] at h
        exact absurd h (by simp)
  | cons kv rest ih =>
      intro c limit r0? e h
      rw [Collection.findLoop] at h
      rcases hidx : c.index kv.1 true with e1 | ic <;> rw [hidx] at h
      · have he : e1 = e := by simpa [exBind_err] using h
        subst he
        exact index_err hidx
      · rw [exBind_ok] at h
        dsimp only at h
        split at h
        · exact absurd h (by simp)
        · split at h
          · exact absurd h (by simp)
          · exact ih h

/-- `_find` raises `ValueError` exactly on an open collection given a
filter that is itself a sequence: every other filter passes validation
(`valid_filter_obj`), and no later stage of the query path raises
`ValueError`. -/
theorem find_valueError_iff {c : Collection} {f : Val} {limit : Nat} :
    c._find (some f) limit = .error Err.valueError ↔
      c.docs ≠ none ∧ ∃ xs, f = .arr xs := by
  constructor
  · intro h
    rcases hds : c.docs with _ | ds
    · rw [Collection._find] at h
      simp [Collection._assert_open, hds, exBind_err] at h
    · refine ⟨by simp [hds], ?_⟩
      rw [Collection._find] at h
      rw [hds] at h
      simp only [Collection._assert_open, hds, exBind_ok] at h
      rcases hval : _valid_filter f true with _ | _
      · exact valid_filter_top_iff.mp hval
      · rw [_check_filter] at h
        rw [hval] at h
        simp only [if_true, ite_true, exBind_ok] at h
        split at h
        all_goals first
          | simp at h
          | exact absurd rfl (findLoop_err h)
  · rintro ⟨hopen, xs, rfl⟩
    rcases hds : c.docs with _ | ds
    · exact absurd hds hopen
    · rw [Collection._find]
      rw [hds]
      simp only [Collection._assert_open, hds, exBind_ok]
      rw [_check_filter]
      have hval : _valid_filter (.arr xs) true = false := rfl
      rw [hval]
      simp [exBind_err]

/-- The freshly constructed empty collection satisfies the invariant. -/
theorem Inv_new (pk : String) : Inv (Collection.new pk) := by
  refine ⟨[], rfl, ?_⟩
  constructor
  · simp [keysOf]
  · intro _id doc hget
    simp [assocGet] at hget
  · exact List.nodup_nil
  · intro _id hmem
    simp [Collection.new] at hmem
  · intro key idx hmem
    simp [Collection.new] at hmem
  · intro key idx hmem
    simp [Collection.new] at hmem
  · intro key idx hmem
    simp [Collection.new] at hmem
  · intro key idx hmem
    simp [Collection.new] at hmem

/-- One constructor-loop step keeps the invariant and the primary
key. -/
theorem initOne_Inv {pk : String} {c c' : Collection} {doc : Val}
    (hInv : Inv c) (h : Collection.initOne pk c doc = .ok c') :
    Inv c' ∧ c'.primary_key = c.primary_key := by
  rcases doc with _ | b | n | s | xs | fs
  iterate 5 exact Except.noConfusion h
  rw [Collection.initOne] at h
  rcases hget : assocGet fs pk with _ | v <;> rw [hget] at h
  · exact Except.noConfusion h
  · rcases v with _ | b | n | s | xs | gs
    · exact Except.noConfusion h
    · exact Except.noConfusion h
    · exact Except.noConfusion h
    · exact setitem_Inv hInv h
    · exact Except.noConfusion h
    · exact Except.noConfusion h

/-- The `Collection(docs=...)` constructor establishes the invariant
with the requested primary key, an empty dirty set and a clean flush
flag. -/
theorem initFromDocs_Inv {pk : String} {docs : List Val} {c : Collection}
    (h : Collection.initFromDocs pk docs = .ok c) :
    Inv c ∧ c.primary_key = pk ∧ c.dirty = [] ∧ c.requires_flush = false := by
  rw [Collection.initFromDocs] at h
  have hfold : ∀ {l : List Val} {c0 c1 : Collection}, Inv c0 →
      l.foldlM (Collection.initOne pk) c0 = .ok c1 →
      Inv c1 ∧ c1.primary_key = c0.primary_key := by
    intro l
    induction l with
    | nil =>
        intro c0 c1 hI hh
        rw [List.foldlM_nil] at hh
        have h2 : Except.ok c0 = Except.ok c1 := hh
        rw [← Except.ok.inj h2]
        exact ⟨hI, rfl⟩
    | cons d t ih =>
        intro c0 c1 hI hh
        rw [List.foldlM_cons] at hh
        rcases hstep : Collection.initOne pk c0 d with e | cm <;> rw [hstep] at hh
        · simp [exBind_err] at hh
        · rw [exBind_ok] at hh
          obtain ⟨hI1, hpk1⟩ := initOne_Inv hI hstep
          obtain ⟨hI2, hpk2⟩ := ih hI1 hh
          exact ⟨hI2, hpk2.trans hpk1⟩
  rcases hf : docs.foldlM (Collection.initOne pk) (Collection.new pk)
      with e | cm <;> rw [hf] at h
  · simp [exBind_err] at h
  · rw [exBind_ok] at h
    obtain ⟨⟨ds, hds, hI⟩, hpk⟩ := hfold (Inv_new pk) hf
    have hds2 : ({ cm with requires_flush := false } : Collection).docs = some ds := hds
    have hI2 : InvOn ({ cm with requires_flush := false } : Collection).primary_key ds
        ({ cm with requires_flush := false } : Collection).dirty
        ({ cm with requires_flush := false } : Collection).indeces := hI
    obtain ⟨g1, g2, g3, g4, g5, g6, g7⟩ := update_indeces_spec hds2 hI2 h
    refine ⟨⟨ds, g2.trans hds2, ?_⟩, ?_, g5, ?_⟩
    · rw [g1, g5]
      exact g7
    · rw [g1]
      exact hpk
    · exact g4

/-- `Collection.open` establishes the invariant: the default primary
key, nothing dirty, no pending flush. -/
theorem openFile_Inv {content : List Val} {c : Collection}
    (h : Collection.openFile content = .ok c) :
    Inv c ∧ c.primary_key = "_id" ∧ c.dirty = [] ∧ c.requires_flush = false := by
  rw [Collection.openFile, Collection._openStream] at h
  dsimp only at h
  simp only [List.drop_zero] at h
  rcases hi : Collection.initFromDocs "_id" content with e | c1 <;> rw [hi] at h
  · simp [exBind_err] at h
  · rw [exBind_ok] at h
    have h2 : Except.ok ({ c1 with file := some { lines := content, pos := content.length } } : Collection) = Except.ok c := h
    obtain ⟨⟨ds, hds, hI⟩, hpk, hdirty, hrf⟩ := initFromDocs_Inv hi
    rw [← Except.ok.inj h2]
    exact ⟨⟨ds, hds, hI⟩, hpk, hdirty, hrf⟩

/-! ## Decomposing the filter traversal -/

/-- An empty mapping contributes no traversal pairs. -/
theorem traverse_obj_nil : _traverse_tree_enc (.obj []) = [] := rfl

/-- The traversal of a mapping decomposes field by field. -/
theorem traverse_obj_cons {p : String × Val} {fs : List (String × Val)} :
    _traverse_tree_enc (.obj (p :: fs)) =
      ((_traverse_tree_enc p.2).map fun pv => (p.1 :: pv.1, pv.2)) ++
        _traverse_tree_enc (.obj fs) := rfl

/-- Every non-mapping is a traversal leaf, contributing its own encoding
under the empty key chain. -/
theorem traverse_leaf {v : Val} (hleaf : ∀ gs, v ≠ Val.obj gs) :
    _traverse_tree_enc v = [([], _encode_tree v)] := by
  rcases v with _ | b | n | s | xs | gs
  iterate 5 rfl
  exact absurd rfl (hleaf gs)

/-- `traverse_filter` of a mapping decomposes field by field. -/
theorem traverse_filter_obj_cons {p : String × Val} {fs : List (String × Val)} :
    traverse_filter (.obj (p :: fs)) =
      traverse_filter (.obj [p]) ++ traverse_filter (.obj fs) := by
  rw [traverse_filter, traverse_filter, traverse_filter]
  rw [traverse_obj_cons]
  conv_rhs => rw [traverse_obj_cons]
  rw [traverse_obj_nil]
  simp

/-- The flattened pairs of the nested filter `{x: {y: v}}` for a leaf
`v`: the dotted path `x.y` mapped to the encoding of `v`. -/
theorem traverse_filter_nested {x y : String} {v : Val}
    (hleaf : ∀ gs, v ≠ Val.obj gs) :
    traverse_filter (.obj [(x, .obj [(y, v)])]) =
      [(String.intercalate "." [x, y], _encode_tree v)] := by
  rw [traverse_filter]
  rw [traverse_obj_cons, traverse_obj_nil]
  dsimp only
  rw [traverse_obj_cons, traverse_obj_nil]
  dsimp only
  rw [traverse_leaf hleaf]
  simp

/-! ## The claims -/

/-- C1 counterexample: after storing the document `\x7b"a.b": 5\x7d` under
id "x", `index("a.b", build=True)` — a refresh point — puts "x" in the
bucket for 5, yet walking the period-separated segments `a`, `b` of the
stored document fails (`walkMatch` is false): the bucket does NOT equal
the set of ids whose document holds the value by walking the path,
because the deprecated literal-dotted-field fallback of `_build_index`
also contributes ids. -/
theorem C1_counterexample :
    (do
      let c ← Collection.setitem (Collection.new "_id") "x"
        (.obj [("a.b", .num 5)])
      let p ← c.index "a.b" true
      pure (idxGet p.1 (.num 5), p.2.docs)) =
      .ok ([Val.str "x"],
        some [("x", Val.obj [("a.b", Val.num 5), ("_id", Val.str "x")])]) ∧
    walkMatch (.obj [("a.b", Val.num 5), ("_id", Val.str "x")]) "a.b"
      (.num 5) = false := by
  exact ⟨rfl, rfl⟩

/-- C1 (amended): in any state reachable from an invariant-satisfying
collection by set/delete/insert/update/refresh operations, after
`index(P, build=True)` the bucket of every encoded value V holds exactly
the ids of the stored documents matching V at P — where matching
(`docMatch`) is by walking P's period-separated segments OR by the
deprecated literal dotted field name: with that fallback included, no
stale id remains in any bucket and no matching id is missing. -/
theorem C1_index_exact (c₀ c₁ c₂ : Collection) (ops : List Op) (key : String)
    (idx : Index) (ds : List (String × Val))
    (h₀ : Inv c₀) (hops : runOps c₀ ops = .ok c₁)
    (hidx : c₁.index key true = .ok (idx, c₂))
    (hds : c₂.docs = some ds) :
    ∀ v x, x ∈ idxGet idx v ↔ x ∈ matchIds ds key v := by
  obtain ⟨hI1, _⟩ := runOps_Inv h₀ hops
  rcases hI1 with ⟨ds₁, hds₁, hIOn⟩
  obtain ⟨g1, g2, g3, g4, g5, g6, g7, g8⟩ := index_spec hds₁ hIOn hidx
  have hdseq : ds = ds₁ := by
    rw [g2, hds₁] at hds
    exact (Option.some.inj hds).symm
  subst hdseq
  intro v x
  exact idxGet_eq_matchIds hIOn.nodupKeys g7 g8

/-- C1 witness: a concrete run — store `\x7b"a": 1\x7d` under "x", then
`index("a", build=True)`; the amended theorem applies with every
hypothesis discharged. -/
theorem C1_index_exact_witness :
    runOps (Collection.new "_id") [Op.set "x" (.obj [("a", .num 1)])] =
      .ok ⟨"_id", some ⟨[], 0⟩, true, ["x"], [],
        some [("x", Val.obj [("a", Val.num 1), ("_id", Val.str "x")])]⟩ ∧
    Collection.index ⟨"_id", some ⟨[], 0⟩, true, ["x"], [],
        some [("x", Val.obj [("a", Val.num 1), ("_id", Val.str "x")])]⟩ "a" true =
      .ok ([(Val.num 1, [Val.str "x"])],
        ⟨"_id", some ⟨[], 0⟩, true, [], [("a", [(Val.num 1, [Val.str "x"])])],
          some [("x", Val.obj [("a", Val.num 1), ("_id", Val.str "x")])]⟩) ∧
    (∀ v x, x ∈ idxGet [(Val.num 1, [Val.str "x"])] v ↔
      x ∈ matchIds [("x", Val.obj [("a", Val.num 1), ("_id", Val.str "x")])] "a" v) := by
  refine ⟨rfl, rfl, ?_⟩
  exact C1_index_exact (Collection.new "_id")
    ⟨"_id", some ⟨[], 0⟩, true, ["x"], [],
      some [("x", Val.obj [("a", Val.num 1), ("_id", Val.str "x")])]⟩
    ⟨"_id", some ⟨[], 0⟩, true, [], [("a", [(Val.num 1, [Val.str "x"])])],
      some [("x", Val.obj [("a", Val.num 1), ("_id", Val.str "x")])]⟩
    [Op.set "x" (.obj [("a", .num 1)])] "a"
    [(Val.num 1, [Val.str "x"])]
    [("x", Val.obj [("a", Val.num 1), ("_id", Val.str "x")])]
    (Inv_new "_id") rfl rfl rfl

/-- C2: the flush/reopen round trip is BROKEN in the code — because
`flush()` truncates at the current position (end of data) instead of at
zero, deleted documents survive on the backing resource and resurrect
on reopen.  Concrete failing run: insert "a" and "b", flush, delete
"b", flush, reopen from the flushed lines: the table at the second
flush holds only "a", but the reopened table holds "a" AND "b". -/
theorem C2_roundtrip_violation :
    (do
      let c ← Collection.openFile []
      let c ← c.setitem "a" (.obj [("_id", .str "a")])
      let c ← c.setitem "b" (.obj [("_id", .str "b")])
      let c ← c.flush
      let c ← c.delitem "b"
      let c ← c.flush
      let lines := match c.file with
                   | some f => f.lines
                   | none => []
      let c2 ← Collection.openFile lines
      pure (c.docs, c2.docs)) =
      .ok (some [("a", Val.obj [("_id", Val.str "a")])],
           some [("a", Val.obj [("_id", Val.str "a")]),
                 ("b", Val.obj [("_id", Val.str "b")])]) ∧
    (some [("a", Val.obj [("_id", Val.str "a")])] ≠
      (some [("a", Val.obj [("_id", Val.str "a")]),
             ("b", Val.obj [("_id", Val.str "b")])] :
        Option (List (String × Val)))) := by
  exact ⟨rfl, by decide⟩

/-- C3: `flush()` does NOT truncate the backing resource to zero
length — `self._file.truncate()` truncates at the CURRENT position,
which sits at the end of the data, so each flush appends a fresh dump
after the old one.  Concrete failing run: store a document, flush,
overwrite it, flush again: the table holds one document but the backing
resource holds two lines (the stale version followed by the current
one), not the one line a truncate-to-zero rewrite would leave. -/
theorem C3_flush_appends :
    (do
      let c ← Collection.setitem (Collection.new "_id") "a"
        (.obj [("_id", .str "a"), ("v", .num 1)])
      let c ← c.flush
      let c ← c.setitem "a" (.obj [("_id", .str "a"), ("v", .num 2)])
      let c ← c.flush
      pure (c.docs, c.file)) =
      .ok (some [("a", Val.obj [("_id", Val.str "a"), ("v", Val.num 2)])],
           some { lines := [Val.obj [("_id", Val.str "a"), ("v", Val.num 1)],
                            Val.obj [("_id", Val.str "a"), ("v", Val.num 2)]],
                  pos := 2 }) ∧
    ([Val.obj [("_id", Val.str "a"), ("v", Val.num 1)],
      Val.obj [("_id", Val.str "a"), ("v", Val.num 2)]].length ≠
      [Val.obj [("_id", Val.str "a"), ("v", Val.num 2)]].length) := by
  exact ⟨rfl, by decide⟩

/-- C4 counterexample: on a collection closed by `close()`, the
id-membership test raises `TypeError` (`_id in None`) and `clear`
raises `AttributeError` (`None.clear()`), NOT the collection-closed
`RuntimeError`: neither method calls `_assert_open`. -/
theorem C4_counterexample :
    (Collection.new "_id").close =
      .ok ⟨"_id", none, false, [], [], none⟩ ∧
    Collection.contains ⟨"_id", none, false, [], [], none⟩ (.str "a") =
      .error Err.typeError ∧
    Collection.clear ⟨"_id", none, false, [], [], none⟩ =
      .error Err.attributeError ∧
    Err.typeError ≠ Err.runtimeClosed ∧
    Err.attributeError ≠ Err.runtimeClosed := by
  exact ⟨rfl, rfl, rfl, by decide, by decide⟩

/-- C4 (amended): on a closed collection (`docs = None`) every table
operation raises — get, set, delete, length, iteration, the ids view
and find raise the collection-closed `RuntimeError`, while the
id-membership test raises `TypeError` and `clear` raises
`AttributeError`, because those two skip `_assert_open`. -/
theorem C4_closed_ops (c : Collection) (h : c.docs = none) :
    (∀ _id, c.getitem _id = .error Err.runtimeClosed) ∧
    (∀ _id doc, c.setitem _id doc = .error Err.runtimeClosed) ∧
    (∀ _id, c.delitem _id = .error Err.runtimeClosed) ∧
    c.length = .error Err.runtimeClosed ∧
    c.iterDocs = .error Err.runtimeClosed ∧
    c.idsList = .error Err.runtimeClosed ∧
    (∀ filter? limit, c._find filter? limit = .error Err.runtimeClosed) ∧
    (∀ v, c.contains v = .error Err.typeError) ∧
    c.clear = .error Err.attributeError := by
  refine ⟨?_, ?_, ?_, ?_, ?_, ?_, ?_, ?_, ?_⟩
  · intro _id
    simp [Collection.getitem, Collection._assert_open, h, exBind_err]
  · intro _id doc
    simp [Collection.setitem, Collection._assert_open, h, exBind_err]
  · intro _id
    simp [Collection.delitem, Collection._assert_open, h, exBind_err]
  · simp [Collection.length, Collection._assert_open, h, exBind_err]
  · simp [Collection.iterDocs, Collection._assert_open, h, exBind_err]
  · simp [Collection.idsList, Collection._assert_open, h, exBind_err]
  · intro filter? limit
    simp [Collection._find, Collection._assert_open, h, exBind_err]
  · intro v
    rw [Collection.contains, h]
  · rw [Collection.clear, h]

/-- C4 witness: the amended theorem applied to the concrete closed
state that `close()` produces. -/
theorem C4_closed_ops_witness :
    (⟨"_id", none, false, [], [], none⟩ : Collection).docs = none ∧
    Collection.length ⟨"_id", none, false, [], [], none⟩ =
      .error Err.runtimeClosed ∧
    Collection.contains ⟨"_id", none, false, [], [], none⟩ (.str "a") =
      .error Err.typeError ∧
    Collection.clear ⟨"_id", none, false, [], [], none⟩ =
      .error Err.attributeError :=
  ⟨rfl, (C4_closed_ops _ rfl).2.2.2.1,
    (C4_closed_ops _ rfl).2.2.2.2.2.2.2.1 (.str "a"),
    (C4_closed_ops _ rfl).2.2.2.2.2.2.2.2⟩

/-- C5: for two distinct non-primary-key fields f1, f2 and any values,
`find(\x7bf1: v1, f2: v2\x7d)` with no limit returns exactly the
intersection of `find(\x7bf1: v1\x7d)` and `find(\x7bf2: v2\x7d)` on the
same collection state: membership in the combined result is equivalent
to membership in both single-field results. -/
theorem C5_find_intersection (c c₁ c₂ c₃ : Collection)
    (ds : List (String × Val)) (f1 f2 : String) (v1 v2 : Val)
    (S S1 S2 : List Val)
    (hInv : Inv c) (hds : c.docs = some ds)
    (h1pk : f1 ≠ c.primary_key) (h2pk : f2 ≠ c.primary_key) (hne : f1 ≠ f2)
    (hboth : c._find (some (.obj [(f1, v1), (f2, v2)])) 0 = .ok (S, c₁))
    (hfst : c._find (some (.obj [(f1, v1)])) 0 = .ok (S1, c₂))
    (hsnd : c._find (some (.obj [(f2, v2)])) 0 = .ok (S2, c₃)) :
    ∀ x, x ∈ S ↔ x ∈ S1 ∧ x ∈ S2 := by
  obtain ⟨ds', hds', hIOn⟩ := hInv
  have hds'' : ds' = ds := by
    rw [hds] at hds'
    exact (Option.some.inj hds').symm
  subst hds''
  have hget2 : assocGet [(f1, v1), (f2, v2)] c.primary_key = none := by
    simp [assocGet, h1pk, h2pk]
  have hget1 : assocGet [(f1, v1)] c.primary_key = none := by
    simp [assocGet, h1pk]
  have hget3 : assocGet [(f2, v2)] c.primary_key = none := by
    simp [assocGet, h2pk]
  obtain ⟨_, _, _, _, hS⟩ := find_char hds hIOn (by simp) hget2 hboth
  obtain ⟨_, _, _, _, hS1⟩ := find_char hds hIOn (by simp) hget1 hfst
  obtain ⟨_, _, _, _, hS2⟩ := find_char hds hIOn (by simp) hget3 hsnd
  intro x
  rw [hS, hS1, hS2, traverse_filter_obj_cons]
  constructor
  · intro hall
    exact ⟨fun kv hkv => hall kv (List.mem_append_left _ hkv),
           fun kv hkv => hall kv (List.mem_append_right _ hkv)⟩
  · rintro ⟨ha, hb⟩ kv hkv
    rcases List.mem_append.mp hkv with hkv | hkv
    · exact ha kv hkv
    · exact hb kv hkv

/-- C5 witness: a collection opened from one document
`\x7b"_id": "a", "x": 1, "y": 2\x7d`; all three finds return
`["a"]` and the theorem applies with every hypothesis discharged. -/
theorem C5_find_intersection_witness :
    Collection.openFile
      [Val.obj [("_id", .str "a"), ("x", .num 1), ("y", .num 2)]] =
      .ok ⟨"_id",
        some ⟨[Val.obj [("_id", .str "a"), ("x", .num 1), ("y", .num 2)]], 1⟩,
        false, [], [],
        some [("a", Val.obj [("_id", .str "a"), ("x", .num 1), ("y", .num 2)])]⟩ ∧
    Collection._find ⟨"_id",
        some ⟨[Val.obj [("_id", .str "a"), ("x", .num 1), ("y", .num 2)]], 1⟩,
        false, [], [],
        some [("a", Val.obj [("_id", .str "a"), ("x", .num 1), ("y", .num 2)])]⟩
      (some (.obj [("x", .num 1), ("y", .num 2)])) 0 =
      .ok ([Val.str "a"], ⟨"_id",
        some ⟨[Val.obj [("_id", .str "a"), ("x", .num 1), ("y", .num 2)]], 1⟩,
        false, [],
        [("x", [(Val.num 1, [Val.str "a"])]), ("y", [(Val.num 2, [Val.str "a"])])],
        some [("a", Val.obj [("_id", .str "a"), ("x", .num 1), ("y", .num 2)])]⟩) ∧
    (∀ x, x ∈ [Val.str "a"] ↔ x ∈ [Val.str "a"] ∧ x ∈ [Val.str "a"]) := by
  refine ⟨rfl, rfl, ?_⟩
  exact C5_find_intersection
    ⟨"_id",
      some ⟨[Val.obj [("_id", .str "a"), ("x", .num 1), ("y", .num 2)]], 1⟩,
      false, [], [],
      some [("a", Val.obj [("_id", .str "a"), ("x", .num 1), ("y", .num 2)])]⟩
    ⟨"_id",
      some ⟨[Val.obj [("_id", .str "a"), ("x", .num 1), ("y", .num 2)]], 1⟩,
      false, [],
      [("x", [(Val.num 1, [Val.str "a"])]), ("y", [(Val.num 2, [Val.str "a"])])],
      some [("a", Val.obj [("_id", .str "a"), ("x", .num 1), ("y", .num 2)])]⟩
    ⟨"_id",
      some ⟨[Val.obj [("_id", .str "a"), ("x", .num 1), ("y", .num 2)]], 1⟩,
      false, [],
      [("x", [(Val.num 1, [Val.str "a"])])],
      some [("a", Val.obj [("_id", .str "a"), ("x", .num 1), ("y", .num 2)])]⟩
    ⟨"_id",
      some ⟨[Val.obj [("_id", .str "a"), ("x", .num 1), ("y", .num 2)]], 1⟩,
      false, [],
      [("y", [(Val.num 2, [Val.str "a"])])],
      some [("a", Val.obj [("_id", .str "a"), ("x", .num 1), ("y", .num 2)])]⟩
    [("a", Val.obj [("_id", .str "a"), ("x", .num 1), ("y", .num 2)])]
    "x" "y" (.num 1) (.num 2)
    [Val.str "a"] [Val.str "a"] [Val.str "a"]
    (openFile_Inv (rfl :
      Collection.openFile
        [Val.obj [("_id", .str "a"), ("x", .num 1), ("y", .num 2)]] =
        .ok ⟨"_id",
          some ⟨[Val.obj [("_id", .str "a"), ("x", .num 1), ("y", .num 2)]], 1⟩,
          false, [], [],
          some [("a", Val.obj [("_id", .str "a"), ("x", .num 1), ("y", .num 2)])]⟩)).1
    rfl (by decide) (by decide) (by decide) rfl rfl rfl

/-- C6: starting from any invariant-satisfying state, after any
sequence of insert_one / set-by-id / update operations (delete and
query refresh included), every id of the document table maps to a
mapping document whose own primary-key field holds exactly that id. -/
theorem C6_pk_field (c₀ c₁ : Collection) (ops : List Op)
    (ds : List (String × Val))
    (h₀ : Inv c₀) (hops : runOps c₀ ops = .ok c₁) (hds : c₁.docs = some ds) :
    ∀ _id doc, assocGet ds _id = some doc →
      ∃ fs, doc = .obj fs ∧ assocGet fs c₁.primary_key = some (.str _id) := by
  obtain ⟨⟨ds₁, hds₁, hIOn⟩, _⟩ := runOps_Inv h₀ hops
  have hdseq : ds = ds₁ := by
    rw [hds₁] at hds
    exact (Option.some.inj hds).symm
  subst hdseq
  exact hIOn.pkField

/-- C6 witness: inserting `\x7b\x7d` under the generated id "u" stores
`\x7b"_id": "u"\x7d`, whose primary-key field is "u". -/
theorem C6_pk_field_witness :
    runOps (Collection.new "_id") [Op.insertOne "u" (.obj [])] =
      .ok ⟨"_id", some ⟨[], 0⟩, true, ["u"], [],
        some [("u", Val.obj [("_id", Val.str "u")])]⟩ ∧
    ∃ fs, Val.obj [("_id", Val.str "u")] = .obj fs ∧
      assocGet fs "_id" = some (Val.str "u") :=
  ⟨rfl, C6_pk_field (Collection.new "_id")
    ⟨"_id", some ⟨[], 0⟩, true, ["u"], [],
      some [("u", Val.obj [("_id", Val.str "u")])]⟩
    [Op.insertOne "u" (.obj [])]
    [("u", Val.obj [("_id", Val.str "u")])]
    (Inv_new "_id") rfl rfl "u" (Val.obj [("_id", Val.str "u")]) rfl⟩

/-! ## Heap-model lemmas for the shallow copy -/

/-- Mutating the object at one address leaves every other address
unchanged. -/
theorem heapGet_setField_ne {h : Heap} {a b : Nat} {k : String} {w : HVal}
    (hne : b ≠ a) : heapGet (setField h a k w) b = heapGet h b := by
  induction h with
  | nil => rfl
  | cons obj t ih =>
      obtain ⟨oa, ofl⟩ := obj
      show assocGet
          ((if oa = a then (oa, assocSet ofl k w) else (oa, ofl)) ::
            setField t a k w) b =
        assocGet ((oa, ofl) :: t) b
      by_cases hoa : oa = a
      · have hob : oa ≠ b := by
          rw [hoa]
          exact fun hh => hne hh.symm
        rw [if_pos hoa]
        simp only [assocGet, if_neg hob]
        exact ih
      · by_cases hob : oa = b
        · rw [if_neg hoa]
          simp only [assocGet, if_pos hob]
        · rw [if_neg hoa]
          simp only [assocGet, if_neg hob]
          exact ih

/-- Reading an address of the base heap ignores a freshly appended
object at a different address. -/
theorem heapGet_append_ne {h : Heap} {aF b : Nat}
    {fields0 : List (String × HVal)} (hne : b ≠ aF) :
    heapGet (h ++ [(aF, fields0)]) b = heapGet h b := by
  rcases hgb : heapGet h b with _ | flds
  · rw [heapGet] at hgb ⊢
    rw [assocGet_append_right hgb]
    have haFb : aF ≠ b := fun hh => hne hh.symm
    simp [assocGet, haFb]
  · rw [heapGet] at hgb ⊢
    rw [assocGet_append_left hgb]

/-- Pointwise-equal element functions give equal `mapM` runs in the
`Option` monad. -/
theorem mapM_opt_congr {α β : Type} {f g : α → Option β} :
    ∀ {l : List α}, (∀ a ∈ l, f a = g a) → l.mapM f = l.mapM g := by
  intro l
  induction l with
  | nil => intro _; rfl
  | cons a t ih =>
      intro hall
      rw [List.mapM_cons, List.mapM_cons]
      rw [hall a (by simp), ih fun b hb => hall b (by simp [hb])]

/-- The core isolation fact: append a fresh object nobody references,
then mutate a field of it in place — the materialisation of every heap
value other than a direct reference to the new object is unchanged. -/
theorem materialize_setField_fresh {h : Heap} {aF : Nat}
    {fields0 : List (String × HVal)} {k : String} {w : HVal}
    (hget : heapGet h aF = none) (hment : heapMentions h aF = false) :
    ∀ (fuel : Nat) (hv : HVal), hv ≠ HVal.ref aF →
      materialize fuel (setField (h ++ [(aF, fields0)]) aF k w) hv =
        materialize fuel h hv := by
  intro fuel
  induction fuel with
  | zero =>
      intro hv _
      rfl
  | succ n ih =>
      intro hv hne
      rcases hv with v | b
      · rfl
      · have hb : b ≠ aF := fun hb => hne (by rw [hb])
        rw [materialize, materialize]
        rw [heapGet_setField_ne hb, heapGet_append_ne hb]
        rcases hgb : heapGet h b with _ | flds
        · rfl
        · have hobj : (b, flds) ∈ h := assocGet_mem hgb
          have hflds : ∀ f ∈ flds, f.2 ≠ HVal.ref aF := by
            intro f hf hc
            have : h.any fun obj => obj.2.any fun g => g.2 = HVal.ref aF := by
              rw [List.any_eq_true]
              exact ⟨(b, flds), hobj, by
                rw [List.any_eq_true]
                exact ⟨f, hf, by simp [hc]⟩⟩
            rw [heapMentions] at hment
            rw [hment] at this
            exact Bool.noConfusion this
          have hcong :
              (flds.mapM fun f =>
                (materialize n (setField (h ++ [(aF, fields0)]) aF k w) f.2).map
                  ((f.1, ·))) =
              (flds.mapM fun f => (materialize n h f.2).map ((f.1, ·))) :=
            mapM_opt_congr fun f hf => by rw [ih f.2 (hflds f hf)]
          exact congrArg (Option.map Val.obj) hcong

/-- C7 counterexample: `get(id)` is a SHALLOW copy, not a
value-isolated one.  Heap: object 0 is the stored document
`\x7b"_id": "a", "x": -> 1\x7d` whose field "x" references the nested
object 1 = `\x7b"y": 1\x7d`.  Copying object 0 (what `__getitem__`
returns) yields fresh object 2 sharing the reference to 1; reading "x"
from the copy hands the caller that reference, and mutating object 1
through it changes the materialisation of the STORED document from
`\x7b..., "x": \x7b"y": 1\x7d\x7d` to `\x7b..., "x": \x7b"y": 2\x7d\x7d`. -/
theorem C7_counterexample :
    copyTop [(0, [("_id", HVal.prim (.str "a")), ("x", HVal.ref 1)]),
             (1, [("y", HVal.prim (.num 1))])] 0 =
      some ([(0, [("_id", HVal.prim (.str "a")), ("x", HVal.ref 1)]),
             (1, [("y", HVal.prim (.num 1))]),
             (2, [("_id", HVal.prim (.str "a")), ("x", HVal.ref 1)])], 2) ∧
    getField [(0, [("_id", HVal.prim (.str "a")), ("x", HVal.ref 1)]),
              (1, [("y", HVal.prim (.num 1))]),
              (2, [("_id", HVal.prim (.str "a")), ("x", HVal.ref 1)])] 2 "x" =
      some (HVal.ref 1) ∧
    materialize 3
      (setField [(0, [("_id", HVal.prim (.str "a")), ("x", HVal.ref 1)]),
                 (1, [("y", HVal.prim (.num 1))]),
                 (2, [("_id", HVal.prim (.str "a")), ("x", HVal.ref 1)])]
        1 "y" (HVal.prim (.num 2))) (HVal.ref 0) =
      some (.obj [("_id", .str "a"), ("x", .obj [("y", .num 2)])]) ∧
    materialize 3 [(0, [("_id", HVal.prim (.str "a")), ("x", HVal.ref 1)]),
                   (1, [("y", HVal.prim (.num 1))])] (HVal.ref 0) =
      some (.obj [("_id", .str "a"), ("x", .obj [("y", .num 1)])]) ∧
    (some (Val.obj [("_id", .str "a"), ("x", .obj [("y", .num 2)])]) ≠
      some (Val.obj [("_id", .str "a"), ("x", .obj [("y", .num 1)])])) := by
  exact ⟨rfl, rfl, rfl, rfl, by decide⟩

/-- C7 (amended): the copy `get(id)` returns is isolated at the TOP
level only — mutating a field of the copy object itself never changes
any stored document's materialisation (proved here for a copy placed at
a fresh, unreferenced address); mutations of nested objects reached
through the copy DO leak into the table (see the counterexample),
because the copy is shallow. -/
theorem C7_copy_top_level_isolated (h : Heap) (a a' : Nat) (h' : Heap)
    (k : String) (w : HVal) (fuel : Nat)
    (hcopy : copyTop h a = some (h', a'))
    (hfresh : heapGet h a' = none)
    (hnoref : heapMentions h a' = false) :
    materialize fuel (setField h' a' k w) (.ref a) =
      materialize fuel h (.ref a) := by
  rcases hg : heapGet h a with _ | fields
  · rw [copyTop, hg] at hcopy
    exact Option.noConfusion hcopy
  · rw [copyTop, hg] at hcopy
    obtain ⟨hh', ha'⟩ := Prod.mk.inj (Option.some.inj hcopy)
    have hne : HVal.ref a ≠ HVal.ref a' := by
      intro hc
      have haa : a = a' := by
        injection hc
      rw [haa, hfresh] at hg
      exact Option.noConfusion hg
    rw [← hh', ← ha']
    rw [← ha'] at hfresh hnoref hne
    exact materialize_setField_fresh hfresh hnoref fuel (.ref a) hne

/-- C7 witness: the amended theorem applied to the concrete two-object
heap of the counterexample, mutating the copy's own field "x". -/
theorem C7_copy_top_level_isolated_witness :
    copyTop [(0, [("_id", HVal.prim (.str "a")), ("x", HVal.ref 1)]),
             (1, [("y", HVal.prim (.num 1))])] 0 =
      some ([(0, [("_id", HVal.prim (.str "a")), ("x", HVal.ref 1)]),
             (1, [("y", HVal.prim (.num 1))]),
             (2, [("_id", HVal.prim (.str "a")), ("x", HVal.ref 1)])], 2) ∧
    heapGet [(0, [("_id", HVal.prim (.str "a")), ("x", HVal.ref 1)]),
             (1, [("y", HVal.prim (.num 1))])] 2 = none ∧
    heapMentions [(0, [("_id", HVal.prim (.str "a")), ("x", HVal.ref 1)]),
                  (1, [("y", HVal.prim (.num 1))])] 2 = false ∧
    materialize 3
      (setField [(0, [("_id", HVal.prim (.str "a")), ("x", HVal.ref 1)]),
                 (1, [("y", HVal.prim (.num 1))]),
                 (2, [("_id", HVal.prim (.str "a")), ("x", HVal.ref 1)])]
        2 "x" (HVal.prim .null)) (HVal.ref 0) =
      materialize 3 [(0, [("_id", HVal.prim (.str "a")), ("x", HVal.ref 1)]),
                     (1, [("y", HVal.prim (.num 1))])] (HVal.ref 0) :=
  ⟨rfl, rfl, rfl,
    C7_copy_top_level_isolated
      [(0, [("_id", HVal.prim (.str "a")), ("x", HVal.ref 1)]),
       (1, [("y", HVal.prim (.num 1))])]
      0 2
      [(0, [("_id", HVal.prim (.str "a")), ("x", HVal.ref 1)]),
       (1, [("y", HVal.prim (.num 1))]),
       (2, [("_id", HVal.prim (.str "a")), ("x", HVal.ref 1)])]
      "x" (HVal.prim .null) 3 rfl rfl rfl⟩

/-- C8 counterexample: `replace_one` with a single-entry primary-key
filter and `upsert=False` on an EMPTY collection (zero matches) still
mutates the table: the primary-key fast path assigns unconditionally,
an implicit upsert. -/
theorem C8_counterexample :
    (Collection.new "_id").docs = some [] ∧
    (Collection.replace_one (Collection.new "_id")
        (.obj [("_id", .str "x")]) (.obj []) false "f").map Collection.docs =
      .ok (some [("x", Val.obj [("_id", Val.str "x")])]) ∧
    some [("x", Val.obj [("_id", Val.str "x")])] ≠
      (some [] : Option (List (String × Val))) := by
  exact ⟨rfl, rfl, by decide⟩

/-- C8 (amended): for every filter that is NOT a single-entry
primary-key filter (those assign unconditionally), when the query
matches zero documents, `replace_one(filter, replacement, upsert=False)`
succeeds and leaves the document table unchanged (the scan may still
build/refresh indices). -/
theorem C8_replace_zero_matches (c c₁ : Collection)
    (fs : List (String × Val)) (repl : Val) (fresh : String)
    (hnotpk : ¬(fs.length = 1 ∧ (assocGet fs c.primary_key).isSome))
    (hfind : c._find (some (.obj fs)) 0 = .ok ([], c₁)) :
    c.replace_one (.obj fs) repl false fresh = .ok c₁ ∧ c₁.docs = c.docs := by
  have hopen : ∃ ds, c.docs = some ds := by
    rcases hds : c.docs with _ | ds
    · rw [Collection._find] at hfind
      simp [Collection._assert_open, hds, exBind_err] at hfind
    · exact ⟨ds, rfl⟩
  obtain ⟨ds, hds⟩ := hopen
  obtain ⟨hdocs, _, _, _⟩ := find_frame hfind
  refine ⟨?_, by rw [hdocs, hds]⟩
  rw [Collection.replace_one]
  simp only [Collection._assert_open, hds, exBind_ok]
  rw [if_neg hnotpk]
  rw [hfind]
  rw [exBind_ok]
  rfl

/-- C8 witness: the empty collection with the non-primary-key filter
`\x7b"x": 1\x7d`: the scan matches nothing, the table stays `[]` (the
scan installed an empty index for "x"). -/
theorem C8_replace_zero_matches_witness :
    ¬(([("x", Val.num 1)] : List (String × Val)).length = 1 ∧
        (assocGet [("x", Val.num 1)] "_id").isSome) ∧
    (Collection.new "_id")._find (some (.obj [("x", Val.num 1)])) 0 =
      .ok ([], ⟨"_id", some ⟨[], 0⟩, false, [], [("x", [])], some []⟩) ∧
    Collection.replace_one (Collection.new "_id") (.obj [("x", Val.num 1)])
        (.obj []) false "f" =
      .ok ⟨"_id", some ⟨[], 0⟩, false, [], [("x", [])], some []⟩ ∧
    (⟨"_id", some ⟨[], 0⟩, false, [], [("x", [])], some []⟩ : Collection).docs =
      (Collection.new "_id").docs :=
  ⟨by decide, rfl,
    C8_replace_zero_matches (Collection.new "_id")
      ⟨"_id", some ⟨[], 0⟩, false, [], [("x", [])], some []⟩
      [("x", Val.num 1)] (.obj []) "f" (by decide) rfl⟩

/-- C9 counterexample: `find` does NOT raise on a filter whose
top-level value is a sequence — `\x7b"x": [1, 2]\x7d` runs fine and
returns the empty result on the empty collection ( `_valid_filter`
passes `top=False` to the values of the top-level mapping, so only a
filter that IS a sequence fails validation); and the nested filter
`\x7b"x": \x7b"y": [1, 2]\x7d\x7d` does not match by sequence VALUE:
it matches a document whose `x.y` is the STRING "[1, 2]" (the
traversal compares canonical encodings), which is not the sequence. -/
theorem C9_counterexample :
    (Collection.new "_id")._find
        (some (.obj [("x", .arr [.num 1, .num 2])])) 0 =
      .ok ([], ⟨"_id", some ⟨[], 0⟩, false, [], [("x", [])], some []⟩) ∧
    (do
      let c ← Collection.openFile
        [Val.obj [("_id", .str "n2"), ("x", .obj [("y", .str "[1, 2]")])]]
      let rS ← c._find
        (some (.obj [("x", .obj [("y", .arr [.num 1, .num 2])])])) 0
      pure rS.1) = .ok [Val.str "n2"] ∧
    assocGet [("y", Val.str "[1, 2]")] "y" ≠
      some (Val.arr [.num 1, .num 2]) := by
  exact ⟨rfl, rfl, by decide⟩

/-- C9 (amended): (1) `find` raises `ValueError` exactly when the
(open-collection) filter itself IS a sequence — never for a mapping
filter, whatever its values, top-level sequences included, since the
mapping case of `_valid_filter` recurses with `top=False`; (2) every
mapping filter passes validation; (3) a filter with a sequence nested
under two mapping keys is valid and matches exactly the documents whose
ENCODED value at the dotted path equals the canonical JSON encoding of
the sequence. -/
theorem C9_validation_and_nested_match :
    (∀ (c : Collection) (f : Val) (limit : Nat),
       c._find (some f) limit = .error Err.valueError ↔
         c.docs ≠ none ∧ ∃ xs, f = .arr xs) ∧
    (∀ fs : List (String × Val), _valid_filter (.obj fs) true = true) ∧
    (∀ (c c' : Collection) (ds : List (String × Val)) (x y : String)
       (L S : List Val),
       Inv c → c.docs = some ds → x ≠ c.primary_key →
       c._find (some (.obj [(x, .obj [(y, .arr L)])])) 0 = .ok (S, c') →
       ∀ z, z ∈ S ↔ z ∈ matchIds ds (String.intercalate "." [x, y])
           (.str (Val.dump (.arr L)))) := by
  refine ⟨fun c f limit => find_valueError_iff, fun fs => valid_filter_obj, ?_⟩
  intro c c' ds x y L S hInv hds hxpk h
  obtain ⟨ds', hds', hIOn⟩ := hInv
  have hds'' : ds' = ds := by
    rw [hds] at hds'
    exact (Option.some.inj hds').symm
  subst hds''
  obtain ⟨_, _, _, _, hS⟩ := find_char hds hIOn (by simp)
    (by simp [assocGet, hxpk]) h
  intro z
  rw [hS]
  rw [traverse_filter_nested (by intro gs hgs; exact Val.noConfusion hgs)]
  simp only [List.mem_singleton, forall_eq]
  rfl

/-- C9 witness: part 1 applied to the sequence filter `[]` on the fresh
collection; part 2 to the filter fields `[("x", [1])]`; part 3 to a
one-document collection holding `\x7b"_id": "n1", "x": \x7b"y":
[1, 2]\x7d\x7d` and the nested filter `\x7b"x": \x7b"y": [1,
2]\x7d\x7d`, whose result is exactly `["n1"]`. -/
theorem C9_validation_and_nested_match_witness :
    (Collection.new "_id")._find (some (.arr [])) 0 =
      .error Err.valueError ∧
    _valid_filter (.obj [("x", Val.arr [Val.num 1])]) true = true ∧
    Collection.openFile
      [Val.obj [("_id", .str "n1"), ("x", .obj [("y", .arr [.num 1, .num 2])])]] =
      .ok ⟨"_id",
        some ⟨[Val.obj [("_id", .str "n1"),
                ("x", .obj [("y", .arr [.num 1, .num 2])])]], 1⟩,
        false, [], [],
        some [("n1", Val.obj [("_id", .str "n1"),
                ("x", .obj [("y", .arr [.num 1, .num 2])])])]⟩ ∧
    Collection._find ⟨"_id",
        some ⟨[Val.obj [("_id", .str "n1"),
                ("x", .obj [("y", .arr [.num 1, .num 2])])]], 1⟩,
        false, [], [],
        some [("n1", Val.obj [("_id", .str "n1"),
                ("x", .obj [("y", .arr [.num 1, .num 2])])])]⟩
      (some (.obj [("x", .obj [("y", .arr [.num 1, .num 2])])])) 0 =
      .ok ([Val.str "n1"], ⟨"_id",
        some ⟨[Val.obj [("_id", .str "n1"),
                ("x", .obj [("y", .arr [.num 1, .num 2])])]], 1⟩,
        false, [],
        [("x.y", [(Val.str "[1, 2]", [Val.str "n1"])])],
        some [("n1", Val.obj [("_id", .str "n1"),
                ("x", .obj [("y", .arr [.num 1, .num 2])])])]⟩) ∧
    (∀ z, z ∈ [Val.str "n1"] ↔
      z ∈ matchIds [("n1", Val.obj [("_id", .str "n1"),
            ("x", .obj [("y", .arr [.num 1, .num 2])])])]
          (String.intercalate "." ["x", "y"])
          (.str (Val.dump (.arr [Val.num 1, Val.num 2])))) := by
  refine ⟨?_, ?_, rfl, rfl, ?_⟩
  · exact (C9_validation_and_nested_match.1 (Collection.new "_id")
      (.arr []) 0).mpr ⟨by simp [Collection.new], [], rfl⟩
  · exact C9_validation_and_nested_match.2.1 [("x", Val.arr [Val.num 1])]
  · exact C9_validation_and_nested_match.2.2
      ⟨"_id",
        some ⟨[Val.obj [("_id", .str "n1"),
                ("x", .obj [("y", .arr [.num 1, .num 2])])]], 1⟩,
        false, [], [],
        some [("n1", Val.obj [("_id", .str "n1"),
                ("x", .obj [("y", .arr [.num 1, .num 2])])])]⟩
      ⟨"_id",
        some ⟨[Val.obj [("_id", .str "n1"),
                ("x", .obj [("y", .arr [.num 1, .num 2])])]], 1⟩,
        false, [],
        [("x.y", [(Val.str "[1, 2]", [Val.str "n1"])])],
        some [("n1", Val.obj [("_id", .str "n1"),
                ("x", .obj [("y", .arr [.num 1, .num 2])])])]⟩
      [("n1", Val.obj [("_id", .str "n1"),
          ("x", .obj [("y", .arr [.num 1, .num 2])])])]
      "x" "y" [Val.num 1, Val.num 2] [Val.str "n1"]
      (openFile_Inv (rfl :
        Collection.openFile
          [Val.obj [("_id", .str "n1"),
            ("x", .obj [("y", .arr [.num 1, .num 2])])]] =
          .ok ⟨"_id",
            some ⟨[Val.obj [("_id", .str "n1"),
                    ("x", .obj [("y", .arr [.num 1, .num 2])])]], 1⟩,
            false, [], [],
            some [("n1", Val.obj [("_id", .str "n1"),
                    ("x", .obj [("y", .arr [.num 1, .num 2])])])]⟩)).1
      rfl (by decide) rfl

/-- C10: `find` on a filter whose only entry maps the primary-key
field to a value that is no id of the table does NOT return an empty
result set — it raises: the candidate set is never seeded (the
primary-key fast path requires the value to be a present id), the
popped filter is empty so the scan loop runs zero times, and the final
truncation step cannot iterate the unset candidate (`islice(None, ...)`
raises `TypeError`). -/
theorem C10_pk_only_miss (c : Collection) (ds : List (String × Val))
    (v : Val) (limit : Nat)
    (hds : c.docs = some ds)
    (hmiss : ∀ p ∈ ds, Val.str p.1 ≠ v) :
    c._find (some (.obj [(c.primary_key, v)])) limit =
      .error Err.typeError := by
  rw [Collection._find]
  rw [hds]
  simp only [Collection._assert_open, hds, exBind_ok]
  rw [_check_filter]
  rw [valid_filter_obj]
  simp only [if_true, ite_true, exBind_ok]
  have hget : assocGet [(c.primary_key, v)] c.primary_key = some v := by
    simp [assocGet]
  have hrem : assocRemove [(c.primary_key, v)] c.primary_key = [] := by
    simp [assocRemove]
  rw [hget, hrem]
  have htf : traverse_filter (.obj ([] : List (String × Val))) = [] := rfl
  rw [htf]
  rcases v with _ | b | n | s | xs | gs
  · rfl
  · rfl
  · rfl
  · have hs : s ∉ keysOf ds := by
      intro hmem
      rw [keysOf] at hmem
      rcases List.mem_map.mp hmem with ⟨p, hp, hps⟩
      exact hmiss p hp (by rw [hps])
    show Collection.findLoop c limit []
        (if s ∈ keysOf ds then some [Val.str s] else none) =
      .error Err.typeError
    rw [if_neg hs]
    rfl
  · rfl
  · rfl

/-- C10 witness: the empty collection with the primary-key-only filter
`\x7b"_id": 7\x7d` — 7 is no id of the table — makes `find` raise
`TypeError` instead of returning an empty result. -/
theorem C10_pk_only_miss_witness :
    (Collection.new "_id").docs = some [] ∧
    (∀ p ∈ ([] : List (String × Val)), Val.str p.1 ≠ Val.num 7) ∧
    (Collection.new "_id")._find (some (.obj [("_id", Val.num 7)])) 0 =
      .error Err.typeError :=
  ⟨rfl, by intro p hp; exact absurd hp (by simp),
    C10_pk_only_miss (Collection.new "_id") [] (Val.num 7) 0 rfl
      (by intro p hp; exact absurd hp (by simp))⟩
